import Mathlib

/-!
Shallow embedding of `pkg/loggerinfo/drain/drain.go`: the Drain log-template
mining engine (prefix tree, similarity matching, LRU cluster cache, and the
per-cluster time-bucketed volume tracker), together with theorems settling
the specification claims about it.

Conventions of the embedding:
* Go strings are modelled as `List Char` (`Str`); Go `int`/`int64` as
  `Nat`/`Int` (no verified path overflows for realistic inputs, and no
  claim concerns wrap-around).
* Go `float64` similarity scores are modelled as exact rationals built with
  `Rat.divInt`: every score produced by `getSeqDistance` is a ratio `k / n`
  with `k ≤ n`, which `float64` represents and compares exactly for
  `n < 2^52`.
* In-place mutation through `*LogCluster` pointers is modelled by explicit
  state passing; the cluster cache is the owning store, keyed by cluster id.
* Code points where the Go program panics (unguarded index, nil-map
  dereference, length-mismatch panic) are modelled as no-op fallbacks and
  proved unreachable where a claim asserts so; each such site is marked by
  a comment.
-/

/-- Go strings, modelled as lists of characters. -/
abbrev Str := List Char

namespace DrainModel

/-! ## Association lists

Go maps are used in drain.go only through key lookup, key insertion and
`len`; iteration order is never observed. They are modelled as association
lists. -/

/-- Lookup in an association list (Go map read `m[k]`). -/
def afind {κ : Type} [DecidableEq κ] {α : Type} (k : κ) : List (κ × α) → Option α
  | [] => none
  | (k', v) :: rest => if k' = k then some v else afind k rest

/-- Insert or overwrite in an association list (Go map write `m[k] = v`). -/
def aset {κ : Type} [DecidableEq κ] {α : Type} (k : κ) (v : α) :
    List (κ × α) → List (κ × α)
  | [] => [(k, v)]
  | (k', v') :: rest => if k' = k then (k, v) :: rest else (k', v') :: aset k v rest

/-- Remove every entry with the given key. -/
def aremove {κ : Type} [DecidableEq κ] {α : Type} (k : κ) :
    List (κ × α) → List (κ × α)
  | [] => []
  | (k', v') :: rest => if k' = k then aremove k rest else (k', v') :: aremove k rest

/-- Overwrite the value stored at a key, keeping the position (models a
write through a pointer held in a container). -/
def awrite {κ : Type} [DecidableEq κ] {α : Type} (k : κ) (v : α) :
    List (κ × α) → List (κ × α)
  | [] => []
  | (k', v') :: rest => if k' = k then (k, v) :: rest else (k', v') :: awrite k v rest

/-! ## Volume tracker (drain.go lines 56-155) -/

/-- Ten seconds in nanoseconds: `timeResolution = int64(time.Second * 10)`. -/
def timeResolution : Int := 10000000000

/-- Go's `%` on integers is truncated remainder (`Int.tmod`), not Euclidean:
`truncateTimestamp(ts) = ts - ts%timeResolution`. -/
def truncateTimestamp (ts : Int) : Int := ts - Int.tmod ts timeResolution

/-- Iteration-bounded embedding of Go's `sort.Search` loop
(`i, j := 0, n; for i < j { h := (i+j)/2; if !f(h) { i = h+1 } else { j = h } }`).
The fuel only bounds the iteration count; with fuel ≥ `j - i` the result is
exactly Go's, since every iteration strictly shrinks the interval. -/
def sortSearchAux (f : Nat → Bool) : Nat → Nat → Nat → Nat
  | 0, i, _ => i
  | fuel + 1, i, j =>
    if i < j then
      let h := (i + j) / 2
      if f h then sortSearchAux f fuel i h else sortSearchAux f fuel (h + 1) j
    else i

/-- Go's `sort.Search(n, f)`. -/
def sortSearch (n : Nat) (f : Nat → Bool) : Nat := sortSearchAux f n 0 n

/-- Volume: a sequence of `(timestamp, count)` pairs (`Values [][2]int64`). -/
structure Volume where
  Values : List (Int × Int)
deriving DecidableEq, Repr

/-- Go `initVolume(ts)`: a single pair `{ts, 1}` (note: the raw, untruncated
timestamp is stored). -/
def initVolume (ts : Int) : Volume := ⟨[(ts, 1)]⟩

/-- Element of a list of pairs at an index, with the Go out-of-range panic
modelled as a default value (only used at indices proved in range). -/
def listGetD (l : List (Int × Int)) (i : Nat) : Int × Int := l.getD i (0, 0)

/-- Increment the count of the pair at index `i`. -/
def bumpAt (l : List (Int × Int)) (i : Nat) : List (Int × Int) :=
  l.modify (fun p => (p.1, p.2 + 1)) i

/-- Go `Volume.Add(ts)`, embedded exactly, including its two slips:
* the "Prepend" branch (`slices.Grow` + `copy` + overwrite of index 0) does
  not extend the slice's length, so it drops the final element: the result
  is `(t,1) :: Values.dropLast`;
* the binary-search branch searches and compares `Values[i][1]` (the count),
  not `Values[i][0]` (the timestamp).
The empty-`Values` case (a Go index panic, unreachable from `Train`) is
modelled as the identity. -/
def Volume.Add (x : Volume) (ts : Int) : Volume :=
  let t := truncateTimestamp ts
  match x.Values with
  | [] => x
  | v0 :: vrest =>
    let vs := v0 :: vrest
    let first := v0.1
    let last := (listGetD vs (vs.length - 1)).1
    if last = t then
      ⟨bumpAt vs (vs.length - 1)⟩
    else if first > t then
      ⟨(t, 1) :: vs.dropLast⟩
    else if last < t then
      ⟨vs ++ [(t, 1)]⟩
    else
      let index := sortSearch vs.length (fun i => (listGetD vs i).2 ≥ t)
      if index < vs.length ∧ (listGetD vs index).2 = t then
        ⟨bumpAt vs index⟩
      else
        ⟨vs.take index ++ (t, 1) :: vs.drop index⟩

/-- Go `Volume.Matches()`: the sum of all counts. -/
def Volume.Matches (x : Volume) : Int :=
  x.Values.foldl (fun m p => m + p.2) 0

/-! ## Cluster record (drain.go lines 47-69, 149-155) -/

/-- Upper bound on stored sample lines (`maxSamples = 10`). -/
def maxSamples : Nat := 10

/-- Go `LogCluster`. -/
structure LogCluster where
  id : Nat
  Size : Nat
  Tokens : List Str
  Samples : List Str
  Volume : Volume
deriving DecidableEq, Repr

/-- Go `LogCluster.append(content, ts)`: record the event in the volume and
keep the raw line while fewer than `maxSamples` samples are stored. -/
def LogCluster.append (c : LogCluster) (content : Str) (ts : Int) : LogCluster :=
  { c with
    Volume := c.Volume.Add ts
    Samples := if c.Samples.length < maxSamples then c.Samples ++ [content] else c.Samples }

/-! ## Cluster cache (drain.go lines 157-201)

The cache wraps `hashicorp/golang-lru/simplelru.LRU`, a third-party
dependency. Its documented semantics, mirrored here over a list ordered
most-recently-used first:
* `Add(k, v)`: if `k` is present, update the value and move it to the
  front; otherwise insert at the front and, if the size now exceeds the
  capacity, evict the entry at the back (the least recently used one).
* `Get(k)`: return the value and move the entry to the front.
* `Peek(k)`: return the value without touching recency.
* `Keys()`: all keys, oldest to newest. -/

/-- The cache state: `(id, cluster)` entries, most recently used first. -/
abbrev Cache := List (Nat × LogCluster)

/-- Go `math.MaxInt` on a 64-bit platform. -/
def maxIntGo : Nat := 9223372036854775807

/-- Go `createLogClusterCache`: a `maxSize` of zero means unbounded
(`math.MaxInt`). -/
def cacheCap (maxSize : Nat) : Nat := if maxSize = 0 then maxIntGo else maxSize

/-- Model of `simplelru.LRU.Add` followed by capacity eviction, as used by
`LogClusterCache.Set`. -/
def lruAdd (cap : Nat) (c : Cache) (k : Nat) (v : LogCluster) : Cache :=
  match afind k c with
  | some _ => (k, v) :: aremove k c
  | none =>
    let c' := (k, v) :: c
    if cap < c'.length then c'.dropLast else c'

/-- Model of `simplelru.LRU.Get`, the recency-affecting read used by
`LogClusterCache.Get`: returns the hit and the updated recency order. -/
def lruGet (c : Cache) (k : Nat) : Option LogCluster × Cache :=
  match afind k c with
  | some v => (some v, (k, v) :: aremove k c)
  | none => (none, c)

/-- Cache keys, oldest to newest (`simplelru.LRU.Keys`). -/
def cacheKeys (c : Cache) : List Nat := c.reverse.map (fun p => p.1)

/-- Go `LogClusterCache.Values`: peek every key in `Keys()` order; every
key resolves, so this is the values oldest to newest. -/
def cacheValues (c : Cache) : List LogCluster := c.reverse.map (fun p => p.2)

/-! ## Prefix tree (drain.go lines 203-213) -/

/-- Go `Node`: a mapping from token (or wildcard) to child, plus a list of
candidate cluster ids. The root's children are keyed by `strconv.Itoa` of
the token count; since `Itoa` is injective and those keys never mix with
token keys (they live in the root's own map), the first layer is modelled
as keyed by the token count itself (see `DrainState.rootNode`). -/
inductive Node where
  | mk (children : List (Str × Node)) (clusterIDs : List Nat)

/-- Children map of a node. -/
def Node.children : Node → List (Str × Node)
  | .mk cs _ => cs

/-- Candidate cluster ids attached to a node. -/
def Node.clusterIDs : Node → List Nat
  | .mk _ ids => ids

/-- Go `createNode`. -/
def createNode : Node := .mk [] []

/-! ## Configuration (drain.go lines 37-45, 215-236) -/

/-- Go `Config`. `SimTh` is the similarity threshold (a `float64`,
modelled as an exact rational). -/
structure Config where
  maxNodeDepth : Nat
  LogClusterDepth : Nat
  SimTh : ℚ
  MaxChildren : Nat
  ExtraDelimiters : List Str
  MaxClusters : Nat
  ParamString : Str

/-- Go `DefaultConfig()`. -/
def DefaultConfig : Config :=
  { maxNodeDepth := 0
    LogClusterDepth := 4
    SimTh := Rat.divInt 4 10
    MaxChildren := 100
    ExtraDelimiters := []
    MaxClusters := 0
    ParamString := ['<', '*', '>'] }

/-! ## Scoring and template merging (drain.go lines 368-389, 476-488) -/

/-- Tail of `getSeqDistance`: count the positions whose template token is
the wildcard (`paramCount`) and the remaining positions where the tokens
agree (`simTokens`), over the zipped sequences. -/
def seqDistLoop (param : Str) : List (Str × Str) → Nat × Nat
  | [] => (0, 0)
  | (t1, t2) :: rest =>
    let r := seqDistLoop param rest
    if t1 = param then (r.1, r.2 + 1)
    else if t1 = t2 then (r.1 + 1, r.2)
    else r

/-- Go `getSeqDistance(seq1, seq2, includeParams)`; `seq1` is the cluster
template. Go panics when the lengths differ; every call site is proved to
compare equal-length sequences, so the embedding is over the zip. For an
empty `seq1` Go computes `0.0/0.0` (NaN); `Rat.divInt _ 0 = 0` here; that
case is likewise unreachable because tokenization never yields an empty
token list. -/
def getSeqDistance (param : Str) (seq1 seq2 : List Str) (includeParams : Bool) :
    ℚ × Nat :=
  let c := seqDistLoop param (seq1.zip seq2)
  let simTokens := if includeParams then c.1 + c.2 else c.1
  (Rat.divInt simTokens seq1.length, c.2)

/-- Go `createTemplate(seq1, seq2)`: keep a position's token only where
both sequences agree, otherwise write the wildcard. Go panics when the
lengths differ; the only call site (`Train`) is proved length-safe. -/
def createTemplate (param : Str) (seq1 seq2 : List Str) : List Str :=
  List.zipWith (fun t1 t2 => if t1 = t2 then t2 else param) seq1 seq2

/-- Go `hasNumbers`: whether any character is a digit. (Go uses
`unicode.IsNumber`, which also covers non-ASCII numeric code points; every
theorem below treats both branches of the insertion policy uniformly, so
the exact character class is immaterial.) -/
def hasNumbers (s : Str) : Bool := s.any (fun c => c.isDigit)

/-! ## Leaf scoring (drain.go lines 342-366) -/

/-- Loop of Go `fastMatch`: fold over the candidate ids, resolving each
through the recency-affecting `LogClusterCache.Get` (see claim C1) and
keeping the best `(maxSim, maxParamCount, maxCluster)` so far. -/
def fastMatchLoop (param : Str) (includeParams : Bool) (tokens : List Str) :
    List Nat → Cache → ℚ → Int → Option LogCluster →
    ℚ × Int × Option LogCluster × Cache
  | [], cache, ms, mp, mcl => (ms, mp, mcl, cache)
  | cid :: rest, cache, ms, mp, mcl =>
    match lruGet cache cid with
    | (none, cache') => fastMatchLoop param includeParams tokens rest cache' ms mp mcl
    | (some c, cache') =>
      let sp := getSeqDistance param c.Tokens tokens includeParams
      if sp.1 > ms ∨ (sp.1 = ms ∧ (sp.2 : Int) > mp) then
        fastMatchLoop param includeParams tokens rest cache' sp.1 sp.2 (some c)
      else
        fastMatchLoop param includeParams tokens rest cache' ms mp mcl

/-- Go `fastMatch(clusterIDs, tokens, simTh, includeParams)`: the best
candidate if its score reaches the threshold, plus the cache state after
the candidate reads. -/
def fastMatch (param : Str) (includeParams : Bool) (cache : Cache)
    (clusterIDs : List Nat) (tokens : List Str) (simTh : ℚ) :
    Option LogCluster × Cache :=
  let r := fastMatchLoop param includeParams tokens clusterIDs cache (-1) (-1) none
  (if simTh ≤ r.1 then r.2.2.1 else none, r.2.2.2)

/-! ## Tree search (drain.go lines 297-340) -/

/-- Descent loop of Go `treeSearch`: stop at max depth or at the last
token; otherwise follow the exact child, falling back to the wildcard
child; dead-end means no match. -/
def searchWalk (maxD n : Nat) (param : Str) :
    List Str → Nat → Node → Option Node
  | [], _, cur => some cur
  | tok :: rest, d, cur =>
    if maxD ≤ d then some cur
    else if d = n then some cur
    else
      match afind tok cur.children with
      | some nxt => searchWalk maxD n param rest (d + 1) nxt
      | none =>
        match afind param cur.children with
        | some nxt => searchWalk maxD n param rest (d + 1) nxt
        | none => none

/-- Go `treeSearch(rootNode, tokens, simTh, includeParams)`. The
zero-token-count branch indexes `clusterIDs[0]` unguarded; the Go panic on
an empty list is modelled as "no match" and proved unreachable (claim
C10). -/
def treeSearch (cfg : Config) (cache : Cache) (root : List (Nat × Node))
    (tokens : List Str) (simTh : ℚ) (includeParams : Bool) :
    Option LogCluster × Cache :=
  let tokenCount := tokens.length
  match afind tokenCount root with
  | none => (none, cache)
  | some curNode =>
    if tokenCount = 0 then
      match curNode.clusterIDs with
      | [] => (none, cache)
      | cid :: _ => lruGet cache cid
    else
      match searchWalk cfg.maxNodeDepth tokenCount cfg.ParamString tokens 1 curNode with
      | none => (none, cache)
      | some leaf => fastMatch cfg.ParamString includeParams cache leaf.clusterIDs tokens simTh

/-! ## Tree insertion (drain.go lines 391-465) -/

/-- Stale-cluster cleanup at a leaf: keep only the candidate ids that still
resolve, reading each through the recency-affecting `Get`. -/
def filterLive (cache : Cache) : List Nat → List Nat × Cache
  | [] => ([], cache)
  | cid :: rest =>
    match lruGet cache cid with
    | (some _, cache') =>
      let r := filterLive cache' rest
      (cid :: r.1, r.2)
    | (none, cache') => filterLive cache' rest

/-- Leaf case of the insertion walk: clean up stale candidates, then append
the new cluster id. -/
def leafAppend (cache : Cache) (cur : Node) (cid : Nat) : Node × Cache :=
  let r := filterLive cache cur.clusterIDs
  (Node.mk cur.children (r.1 ++ [cid]), r.2)

/-- Walk of Go `addSeqToPrefixTree` below the first layer. The final
`else` branch (no wildcard child and children count at least
`MaxChildren`) makes Go descend into a nil map entry and dereference nil
on the next iteration; it is modelled as a no-op and proved unreachable
when `MaxChildren ≥ 1` (claim C8). -/
def insertWalk (cfg : Config) (cid : Nat) (n : Nat) :
    List Str → Nat → Node → Cache → Node × Cache
  | [], d, cur, cache =>
    if cfg.maxNodeDepth ≤ d ∨ n ≤ d then leafAppend cache cur cid
    else (cur, cache)
  | tok :: rest, d, cur, cache =>
    if cfg.maxNodeDepth ≤ d ∨ n ≤ d then leafAppend cache cur cid
    else
      match afind tok cur.children with
      | some child =>
        let r := insertWalk cfg cid n rest (d + 1) child cache
        (Node.mk (aset tok r.1 cur.children) cur.clusterIDs, r.2)
      | none =>
        if hasNumbers tok then
          match afind cfg.ParamString cur.children with
          | some w =>
            let r := insertWalk cfg cid n rest (d + 1) w cache
            (Node.mk (aset cfg.ParamString r.1 cur.children) cur.clusterIDs, r.2)
          | none =>
            let r := insertWalk cfg cid n rest (d + 1) createNode cache
            (Node.mk (aset cfg.ParamString r.1 cur.children) cur.clusterIDs, r.2)
        else
          match afind cfg.ParamString cur.children with
          | some w =>
            if cur.children.length < cfg.MaxChildren then
              let r := insertWalk cfg cid n rest (d + 1) createNode cache
              (Node.mk (aset tok r.1 cur.children) cur.clusterIDs, r.2)
            else
              let r := insertWalk cfg cid n rest (d + 1) w cache
              (Node.mk (aset cfg.ParamString r.1 cur.children) cur.clusterIDs, r.2)
          | none =>
            if cur.children.length + 1 < cfg.MaxChildren then
              let r := insertWalk cfg cid n rest (d + 1) createNode cache
              (Node.mk (aset tok r.1 cur.children) cur.clusterIDs, r.2)
            else if cur.children.length + 1 = cfg.MaxChildren then
              let r := insertWalk cfg cid n rest (d + 1) createNode cache
              (Node.mk (aset cfg.ParamString r.1 cur.children) cur.clusterIDs, r.2)
            else
              (cur, cache)

/-- Go `addSeqToPrefixTree(rootNode, cluster)`. -/
def addSeqToPrefixTree (cfg : Config) (cache : Cache) (root : List (Nat × Node))
    (cluster : LogCluster) : List (Nat × Node) × Cache :=
  let n := cluster.Tokens.length
  let firstLayer := match afind n root with
    | some fl => fl
    | none => createNode
  if n = 0 then
    (aset n (Node.mk firstLayer.children (firstLayer.clusterIDs ++ [cluster.id])) root, cache)
  else
    let r := insertWalk cfg cluster.id n cluster.Tokens 1 firstLayer cache
    (aset n r.1 root, r.2)

/-! ## Tokenization (drain.go lines 289-295) -/

/-- Go `unicode.IsSpace` restricted to the Latin-1 range it lists
explicitly; the higher-plane White_Space code points are omitted, and no
theorem below depends on the exact class (trimming cannot affect the
nonemptiness of a split). -/
def goIsSpace (c : Char) : Bool :=
  c == ' ' || c == '\t' || c == '\n' || c == Char.ofNat 11 || c == Char.ofNat 12 ||
    c == '\r' || c == Char.ofNat 133 || c == Char.ofNat 160

/-- Go `strings.TrimSpace`. -/
def trimSpace (s : Str) : Str :=
  ((s.dropWhile goIsSpace).reverse.dropWhile goIsSpace).reverse

/-- Whether the first list is a leading segment of the second. -/
def isLeadingSeg : Str → Str → Bool
  | [], _ => true
  | _ :: _, [] => false
  | a :: as, b :: bs => a == b && isLeadingSeg as bs

/-- Fuelled scan of Go `strings.Replace(s, old, " ", -1)` for nonempty
`old`: replace each leftmost occurrence with a single space. Each step
consumes at least one character, so fuel `s.length` makes the scan exact. -/
def goReplaceAux (o : Char) (os : Str) : Nat → Str → Str
  | 0, s => s
  | _ + 1, [] => []
  | fuel + 1, c :: cs =>
    if isLeadingSeg (o :: os) (c :: cs) then ' ' :: goReplaceAux o os fuel (cs.drop os.length)
    else c :: goReplaceAux o os fuel cs

/-- Go `strings.Replace(s, old, " ", -1)`: for empty `old` the separator is
inserted before the first character and after every character. -/
def goReplaceAll (s old : Str) : Str :=
  match old with
  | [] => ' ' :: (s.map (fun c => [c, ' '])).flatten
  | o :: os => goReplaceAux o os s.length s

/-- Go `strings.Split(s, " ")`: split around every space, preserving empty
fields; the result always has at least one element. -/
def goSplitSpace : Str → List Str
  | [] => [[]]
  | c :: cs =>
    match goSplitSpace cs with
    | [] => [[]]
    | t :: ts => if c = ' ' then [] :: t :: ts else (c :: t) :: ts

/-- Go `Drain.getContentAsTokens`: trim, replace each extra delimiter by a
space, then split on spaces. -/
def getContentAsTokens (cfg : Config) (content : Str) : List Str :=
  goSplitSpace (cfg.ExtraDelimiters.foldl (fun acc d => goReplaceAll acc d) (trimSpace content))

/-! ## The engine (drain.go lines 224-287) -/

/-- Go `Drain`. The root node's children are keyed by the token count (see
`Node`); the cache is the `(id, cluster)` list, most recently used first. -/
structure DrainState where
  config : Config
  rootNode : List (Nat × Node)
  idToCluster : Cache
  clustersCounter : Nat

/-- Go `New(config)`: derives `maxNodeDepth = LogClusterDepth - 2` and
starts from an empty tree and cache. Go panics when `LogClusterDepth < 3`;
`Reachable` carries that construction-time bound. -/
def newDrain (config : Config) : DrainState :=
  { config := { config with maxNodeDepth := config.LogClusterDepth - 2 }
    rootNode := []
    idToCluster := []
    clustersCounter := 0 }

/-- Go `Drain.Train(content, ts)`: search with the configured threshold and
wildcards excluded; on a miss allocate the next id and insert into cache
and tree; on a hit merge the template, bump the size, record the line, and
touch the cluster with a recency-affecting `Get`. -/
def Train (s : DrainState) (content : Str) (ts : Int) : LogCluster × DrainState :=
  let contentTokens := getContentAsTokens s.config content
  match treeSearch s.config s.idToCluster s.rootNode contentTokens s.config.SimTh false with
  | (none, cache1) =>
    let clusterID := s.clustersCounter + 1
    let matchCluster : LogCluster :=
      { id := clusterID
        Size := 1
        Tokens := contentTokens
        Samples := [content]
        Volume := initVolume ts }
    let cache2 := lruAdd (cacheCap s.config.MaxClusters) cache1 clusterID matchCluster
    let r := addSeqToPrefixTree s.config cache2 s.rootNode matchCluster
    (matchCluster,
      { s with rootNode := r.1, idToCluster := r.2, clustersCounter := clusterID })
  | (some mc, cache1) =>
    let newTemplateTokens := createTemplate s.config.ParamString contentTokens mc.Tokens
    let mc2 := LogCluster.append { mc with Tokens := newTemplateTokens, Size := mc.Size + 1 }
      content ts
    let cache2 := awrite mc.id mc2 cache1
    let cache3 := (lruGet cache2 mc.id).2
    (mc2, { s with idToCluster := cache3 })

/-- Go `Drain.Match(content)`: search with threshold 1.0 and wildcards
included in scoring. The candidate reads go through the recency-affecting
`Get`, so the cache order can change (claim C1); the updated state is
returned alongside the result. -/
def GoMatch (s : DrainState) (content : Str) : Option LogCluster × DrainState :=
  let contentTokens := getContentAsTokens s.config content
  let r := treeSearch s.config s.idToCluster s.rootNode contentTokens 1 true
  (r.1, { s with idToCluster := r.2 })

/-- Go `Drain.Clusters()`. -/
def Clusters (s : DrainState) : List LogCluster := cacheValues s.idToCluster

/-- States reachable from a freshly constructed engine by any sequence of
`Train` and `Match` calls. The `init` premise is Go `New`'s construction
guard (`depth argument must be at least 3`). -/
inductive Reachable (cfg : Config) : DrainState → Prop where
  | init : 3 ≤ cfg.LogClusterDepth → Reachable cfg (newDrain cfg)
  | train {s} (content : Str) (ts : Int) :
      Reachable cfg s → Reachable cfg (Train s content ts).2
  | lookup {s} (content : Str) :
      Reachable cfg s → Reachable cfg (GoMatch s content).2

/-! ## Basic lemmas -/

/-- Splitting never yields an empty list of fields. -/
theorem goSplitSpace_ne_nil (s : Str) : goSplitSpace s ≠ [] := by
  induction s with
  | nil => simp [goSplitSpace]
  | cons c cs ih =>
    simp only [goSplitSpace]
    cases h : goSplitSpace cs with
    | nil => simp
    | cons t ts => dsimp only; split <;> simp

/-- Strict increase of an integer sequence, as an executable predicate. -/
def strictIncB : List Int → Bool
  | [] => true
  | [_] => true
  | a :: b :: rest => a < b && strictIncB (b :: rest)

/-- Pointwise description of `createTemplate`. -/
theorem createTemplate_getElem? (param : Str) :
    ∀ (s1 s2 : List Str) (i : Nat),
      (createTemplate param s1 s2)[i]? =
        match s1[i]?, s2[i]? with
        | some a, some b => some (if a = b then b else param)
        | _, _ => none := by
  intro s1
  induction s1 with
  | nil => intro s2 i; cases s2 <;> cases i <;> simp [createTemplate]
  | cons a as ih =>
    intro s2 i
    cases s2 with
    | nil => cases i <;> simp [createTemplate]
    | cons b bs =>
      cases i with
      | zero => simp [createTemplate]
      | succ j => simpa [createTemplate] using ih bs j

/-- Tokenization never yields the empty token list. -/
theorem getContentAsTokens_ne_nil (cfg : Config) (content : Str) :
    getContentAsTokens cfg content ≠ [] :=
  goSplitSpace_ne_nil _

/-- The cache capacity is always positive (`maxSize = 0` means unbounded). -/
theorem one_le_cacheCap (m : Nat) : 1 ≤ cacheCap m := by
  unfold cacheCap maxIntGo
  split <;> omega

/-- Self-comparison of a wildcard-free token sequence: every position is a
literal match. -/
theorem seqDistLoop_self (param : Str) :
    ∀ s : List Str, param ∉ s → seqDistLoop param (s.zip s) = (s.length, 0) := by
  intro s
  induction s with
  | nil => intro _; rfl
  | cons a as ih =>
    intro h
    have ha : ¬(a = param) := fun he => h (by simp [he])
    have has : param ∉ as := fun hm => h (List.mem_cons_of_mem _ hm)
    show seqDistLoop param ((a, a) :: as.zip as) = ((a :: as).length, 0)
    simp only [seqDistLoop, ih has, ha]
    simp

/-- A wildcard-free nonempty sequence scores exactly 1 against itself with
wildcards excluded. -/
theorem getSeqDistance_self (param : Str) (s : List Str) (hs : param ∉ s)
    (hne : s ≠ []) : getSeqDistance param s s false = (1, 0) := by
  have hlen : (s.length : Int) ≠ 0 := by
    simpa using (by simpa [List.length_eq_zero] using hne : s.length ≠ 0)
  simp [getSeqDistance, seqDistLoop_self param s hs, Rat.divInt_self' hlen]

/-- Merging a template with itself changes nothing. -/
theorem createTemplate_self (param : Str) : ∀ s : List Str,
    createTemplate param s s = s := by
  intro s
  simp [createTemplate]

/-- The cluster record `Train` creates on a miss. -/
def newClusterOf (s : DrainState) (content : Str) (ts : Int) : LogCluster :=
  { id := s.clustersCounter + 1
    Size := 1
    Tokens := getContentAsTokens s.config content
    Samples := [content]
    Volume := initVolume ts }

/-- The cluster record `Train` produces on a hit: merged template, bumped
size, appended sample and volume event. -/
def mergedOf (s : DrainState) (content : Str) (ts : Int) (mc : LogCluster) :
    LogCluster :=
  LogCluster.append
    { mc with
      Tokens := createTemplate s.config.ParamString (getContentAsTokens s.config content)
        mc.Tokens
      Size := mc.Size + 1 } content ts

/-- Unfolding of `Train` when the search misses. -/
theorem Train_creates (s : DrainState) (content : Str) (ts : Int) (cache1 : Cache)
    (h : treeSearch s.config s.idToCluster s.rootNode
        (getContentAsTokens s.config content) s.config.SimTh false = (none, cache1)) :
    Train s content ts =
      (newClusterOf s content ts,
        { s with
          rootNode := (addSeqToPrefixTree s.config
            (lruAdd (cacheCap s.config.MaxClusters) cache1 (s.clustersCounter + 1)
              (newClusterOf s content ts))
            s.rootNode (newClusterOf s content ts)).1
          idToCluster := (addSeqToPrefixTree s.config
            (lruAdd (cacheCap s.config.MaxClusters) cache1 (s.clustersCounter + 1)
              (newClusterOf s content ts))
            s.rootNode (newClusterOf s content ts)).2
          clustersCounter := s.clustersCounter + 1 }) := by
  simp only [Train, h, newClusterOf]

/-- Unfolding of `Train` when the search hits cluster `mc`. -/
theorem Train_matches (s : DrainState) (content : Str) (ts : Int)
    (mc : LogCluster) (cache1 : Cache)
    (h : treeSearch s.config s.idToCluster s.rootNode
        (getContentAsTokens s.config content) s.config.SimTh false = (some mc, cache1)) :
    Train s content ts =
      (mergedOf s content ts mc,
        { s with
          idToCluster := (lruGet (awrite mc.id (mergedOf s content ts mc) cache1)
            mc.id).2 }) := by
  simp only [Train, h, mergedOf]

/-- Lockstep of tree insertion and tree search along a fresh chain: if a
cluster's tokens are inserted below a brand-new first-layer node, then
searching with the same token list reaches exactly the leaf carrying that
cluster id (and the insertion's cleanup reads leave the cache unchanged,
since every candidate list on the way is empty). Needs `MaxChildren ≥ 1`
(with 0, Go nil-dereferences) and a line free of the wildcard marker. -/
theorem insert_search_lockstep (cfg : Config) (cid n : Nat)
    (hMax : 1 ≤ cfg.MaxChildren) :
    ∀ (toks : List Str) (d : Nat) (cache : Cache),
      cfg.ParamString ∉ toks → d + toks.length = n + 1 →
      (insertWalk cfg cid n toks d createNode cache).2 = cache ∧
      ∃ leaf, searchWalk cfg.maxNodeDepth n cfg.ParamString toks d
            (insertWalk cfg cid n toks d createNode cache).1 = some leaf ∧
          leaf.clusterIDs = [cid] := by
  intro toks
  induction toks with
  | nil =>
    intro d cache _ hd
    simp only [List.length_nil, Nat.add_zero] at hd
    have hbr : cfg.maxNodeDepth ≤ d ∨ n ≤ d := Or.inr (by omega)
    refine ⟨?_, Node.mk [] [cid], ?_, rfl⟩ <;>
      simp [insertWalk, hbr, leafAppend, filterLive, createNode, searchWalk,
        Node.children, Node.clusterIDs]
  | cons tok rest ih =>
    intro d cache hpar hd
    simp only [List.length_cons] at hd
    have htokpar : tok ≠ cfg.ParamString := fun he => hpar (by simp [he])
    have hps : cfg.ParamString ≠ tok := Ne.symm htokpar
    by_cases hbr : cfg.maxNodeDepth ≤ d ∨ n ≤ d
    · have hins : (insertWalk cfg cid n (tok :: rest) d createNode cache)
          = (Node.mk [] [cid], cache) := by
        simp [insertWalk, hbr, leafAppend, filterLive, createNode,
          Node.clusterIDs, Node.children]
      refine ⟨by rw [hins], Node.mk [] [cid], ?_, rfl⟩
      rw [hins]
      rcases hbr with h | h
      · simp [searchWalk, h]
      · have hdn : d = n := by omega
        simp [searchWalk, hdn]
    · have hnd : ¬ cfg.maxNodeDepth ≤ d := fun h => hbr (Or.inl h)
      have hnn : ¬ n ≤ d := fun h => hbr (Or.inr h)
      have hdeq : ¬ d = n := by omega
      have hrestpar : cfg.ParamString ∉ rest := fun hm => hpar (List.mem_cons_of_mem _ hm)
      have hd' : (d + 1) + rest.length = n + 1 := by omega
      obtain ⟨hcache, leaf, hsw, hids⟩ := ih (d + 1) cache hrestpar hd'
      by_cases hnum : hasNumbers tok
      · have hstep : insertWalk cfg cid n (tok :: rest) d createNode cache
            = (Node.mk [(cfg.ParamString,
                (insertWalk cfg cid n rest (d + 1) createNode cache).1)] [],
              (insertWalk cfg cid n rest (d + 1) createNode cache).2) := by
          simp [insertWalk, hnd, hnn, hnum, createNode, afind, aset,
            Node.children, Node.clusterIDs]
        refine ⟨by rw [hstep]; exact hcache, leaf, ?_, hids⟩
        rw [hstep]
        simp [searchWalk, hnd, hdeq, afind, hps, Node.children, hsw]
      · by_cases h1 : 0 + 1 < cfg.MaxChildren
        · have hstep : insertWalk cfg cid n (tok :: rest) d createNode cache
              = (Node.mk [(tok,
                  (insertWalk cfg cid n rest (d + 1) createNode cache).1)] [],
                (insertWalk cfg cid n rest (d + 1) createNode cache).2) := by
            simp [insertWalk, hnd, hnn, hnum, createNode, afind, aset, h1,
              Node.children, Node.clusterIDs]
          refine ⟨by rw [hstep]; exact hcache, leaf, ?_, hids⟩
          rw [hstep]
          simp [searchWalk, hnd, hdeq, afind, Node.children, hsw]
        · have h2 : 0 + 1 = cfg.MaxChildren := by omega
          have hstep : insertWalk cfg cid n (tok :: rest) d createNode cache
              = (Node.mk [(cfg.ParamString,
                  (insertWalk cfg cid n rest (d + 1) createNode cache).1)] [],
                (insertWalk cfg cid n rest (d + 1) createNode cache).2) := by
            simp [insertWalk, hnd, hnn, hnum, createNode, afind, aset, h1, h2,
              Node.children, Node.clusterIDs]
          refine ⟨by rw [hstep]; exact hcache, leaf, ?_, hids⟩
          rw [hstep]
          simp [searchWalk, hnd, hdeq, afind, hps, Node.children, hsw]

/-- Training the same wildcard-free line twice on a fresh engine (given as
explicit empty state over a configuration with positive derived depth and
branching cap, and threshold at most 1) returns the cluster with id 1 both
times, with sizes 1 and 2. -/
theorem double_train_aux (cfg' : Config) (content : Str) (t1 t2 : Int)
    (hMax : 1 ≤ cfg'.MaxChildren) (hSim : cfg'.SimTh ≤ 1)
    (hParam : cfg'.ParamString ∉ getContentAsTokens cfg' content) :
    (Train (⟨cfg', [], [], 0⟩ : DrainState) content t1).1.id = 1 ∧
      (Train (⟨cfg', [], [], 0⟩ : DrainState) content t1).1.Size = 1 ∧
      (Train (Train (⟨cfg', [], [], 0⟩ : DrainState) content t1).2 content t2).1.id = 1 ∧
      (Train (Train (⟨cfg', [], [], 0⟩ : DrainState) content t1).2 content t2).1.Size = 2 := by
  have hne : getContentAsTokens cfg' content ≠ [] := getContentAsTokens_ne_nil _ _
  have hn0 : (getContentAsTokens cfg' content).length ≠ 0 := by
    simpa [List.length_eq_zero] using hne
  -- the first call misses on the empty tree and creates cluster 1
  have hs1 : treeSearch cfg' [] [] (getContentAsTokens cfg' content) cfg'.SimTh false
      = (none, []) := by
    simp [treeSearch, afind]
  have h1 := Train_creates (⟨cfg', [], [], 0⟩ : DrainState) content t1 [] hs1
  set C1v := newClusterOf (⟨cfg', [], [], 0⟩ : DrainState) content t1 with hC1v
  have hC1fields : C1v.id = 1 ∧ C1v.Size = 1 ∧
      C1v.Tokens = getContentAsTokens cfg' content := by
    refine ⟨rfl, rfl, rfl⟩
  have hlru : lruAdd (cacheCap cfg'.MaxClusters) [] (0 + 1) C1v = [(0 + 1, C1v)] := by
    have hcap : ¬ (cacheCap cfg'.MaxClusters < 1) := by
      have := one_le_cacheCap cfg'.MaxClusters
      omega
    simp [lruAdd, afind, hcap]
  rw [hlru] at h1
  -- the insertion builds a fresh chain for the token list
  obtain ⟨hW2, leaf, hsw, hids⟩ :=
    insert_search_lockstep cfg' (0 + 1) (getContentAsTokens cfg' content).length hMax
      (getContentAsTokens cfg' content) 1 [(0 + 1, C1v)] hParam (by omega)
  have haddseq : addSeqToPrefixTree cfg' [(0 + 1, C1v)] [] C1v
      = ([((getContentAsTokens cfg' content).length,
          (insertWalk cfg' (0 + 1) (getContentAsTokens cfg' content).length
            (getContentAsTokens cfg' content) 1 createNode [(0 + 1, C1v)]).1)],
        (insertWalk cfg' (0 + 1) (getContentAsTokens cfg' content).length
          (getContentAsTokens cfg' content) 1 createNode [(0 + 1, C1v)]).2) := by
    simp [addSeqToPrefixTree, afind, hC1v, newClusterOf, hn0, aset]
  rw [haddseq, hW2] at h1
  -- the second call finds the chain and matches cluster 1 with score 1
  have hfind2 : afind (getContentAsTokens cfg' content).length
      [((getContentAsTokens cfg' content).length,
        (insertWalk cfg' (0 + 1) (getContentAsTokens cfg' content).length
          (getContentAsTokens cfg' content) 1 createNode [(0 + 1, C1v)]).1)]
      = some (insertWalk cfg' (0 + 1) (getContentAsTokens cfg' content).length
          (getContentAsTokens cfg' content) 1 createNode [(0 + 1, C1v)]).1 := by
    simp [afind]
  have hget : lruGet [(0 + 1, C1v)] (0 + 1) = (some C1v, [(0 + 1, C1v)]) := by
    simp [lruGet, afind, aremove]
  have hsd : getSeqDistance cfg'.ParamString C1v.Tokens
      (getContentAsTokens cfg' content) false = (1, 0) := by
    rw [hC1fields.2.2]
    exact getSeqDistance_self _ _ hParam hne
  have hloop : fastMatchLoop cfg'.ParamString false (getContentAsTokens cfg' content)
      [0 + 1] [(0 + 1, C1v)] (-1) (-1) none = (1, 0, some C1v, [(0 + 1, C1v)]) := by
    simp only [fastMatchLoop, hget, hsd]
    rw [if_pos (Or.inl (by norm_num))]
    norm_num [fastMatchLoop]
  have hfm : fastMatch cfg'.ParamString false [(0 + 1, C1v)] leaf.clusterIDs
      (getContentAsTokens cfg' content) cfg'.SimTh = (some C1v, [(0 + 1, C1v)]) := by
    rw [hids]
    simp only [fastMatch, hloop]
    rw [if_pos hSim]
  have hs2 : treeSearch cfg' [(0 + 1, C1v)]
      [((getContentAsTokens cfg' content).length,
        (insertWalk cfg' (0 + 1) (getContentAsTokens cfg' content).length
          (getContentAsTokens cfg' content) 1 createNode [(0 + 1, C1v)]).1)]
      (getContentAsTokens cfg' content) cfg'.SimTh false
      = (some C1v, [(0 + 1, C1v)]) := by
    simp only [treeSearch, hfind2]
    rw [if_neg hn0]
    simp only [hsw, hfm]
  rw [h1]
  have h2 := Train_matches
    ({ config := cfg'
       rootNode := [((getContentAsTokens cfg' content).length,
         (insertWalk cfg' (0 + 1) (getContentAsTokens cfg' content).length
           (getContentAsTokens cfg' content) 1 createNode [(0 + 1, C1v)]).1)]
       idToCluster := [(0 + 1, C1v)]
       clustersCounter := 0 + 1 } : DrainState) content t2 C1v [(0 + 1, C1v)] hs2
  rw [h2]
  refine ⟨rfl, rfl, rfl, ?_⟩
  simp [mergedOf, LogCluster.append, hC1v, newClusterOf]

/-! ## Characterization of `fastMatch` (for claim C7) -/

/-- The pair `fastMatch` maximizes for a candidate: similarity score and
wildcard (parameter) count. -/
def scoreOf (param : Str) (inc : Bool) (tokens : List Str) (D : LogCluster) :
    ℚ × Int :=
  ((getSeqDistance param D.Tokens tokens inc).1,
    ((getSeqDistance param D.Tokens tokens inc).2 : Int))

/-- Strict lexicographic order on (score, parameter count). -/
def lexLt (a b : ℚ × Int) : Prop := a.1 < b.1 ∨ (a.1 = b.1 ∧ a.2 < b.2)

/-- Nonstrict lexicographic order on (score, parameter count). -/
def lexLe (a b : ℚ × Int) : Prop := a.1 < b.1 ∨ (a.1 = b.1 ∧ a.2 ≤ b.2)

theorem lexLe_of_not_lt {a b : ℚ × Int} (h : ¬ lexLt a b) : lexLe b a := by
  unfold lexLt at h
  unfold lexLe
  push_neg at h
  rcases lt_or_eq_of_le h.1 with h1 | h1
  · exact Or.inl h1
  · exact Or.inr ⟨h1, h.2 h1.symm⟩

theorem lexLt_trans {a b c : ℚ × Int} (h1 : lexLt a b) (h2 : lexLt b c) :
    lexLt a c := by
  unfold lexLt at *
  rcases h1 with h1 | ⟨h1, h1'⟩ <;> rcases h2 with h2 | ⟨h2, h2'⟩
  · exact Or.inl (h1.trans h2)
  · exact Or.inl (h2 ▸ h1)
  · exact Or.inl (h1 ▸ h2)
  · exact Or.inr ⟨h1.trans h2, h1'.trans h2'⟩

theorem lexLt_of_lexLe_of_lexLt {a b c : ℚ × Int} (h1 : lexLe a b)
    (h2 : lexLt b c) : lexLt a c := by
  unfold lexLe at h1
  unfold lexLt at *
  rcases h1 with h1 | ⟨h1, h1'⟩ <;> rcases h2 with h2 | ⟨h2, h2'⟩
  · exact Or.inl (h1.trans h2)
  · exact Or.inl (h2 ▸ h1)
  · exact Or.inl (h1 ▸ h2)
  · exact Or.inr ⟨h1.trans h2, lt_of_le_of_lt h1' h2'⟩

/-- The update test in `fastMatchLoop` is the strict lexicographic order. -/
theorem update_cond_iff (s : ℚ) (p : Nat) (ms : ℚ) (mp : Int) :
    (s > ms ∨ (s = ms ∧ (p : Int) > mp)) ↔ lexLt (ms, mp) (s, (p : Int)) := by
  unfold lexLt
  constructor
  · rintro (h | ⟨h1, h2⟩)
    · exact Or.inl h
    · exact Or.inr ⟨h1.symm, h2⟩
  · rintro (h | ⟨h1, h2⟩)
    · exact Or.inl h
    · exact Or.inr ⟨h1.symm, h2⟩

/-- Scores are nonnegative (a count over a nonnegative length). -/
theorem score_fst_nonneg (param : Str) (inc : Bool) (tokens : List Str)
    (D : LogCluster) : 0 ≤ (scoreOf param inc tokens D).1 := by
  unfold scoreOf getSeqDistance
  exact Rat.divInt_nonneg (Int.natCast_nonneg _) (Int.natCast_nonneg _)

theorem afind_aremove_ne {κ : Type} [DecidableEq κ] {α : Type} (k k' : κ)
    (l : List (κ × α)) (h : k' ≠ k) : afind k' (aremove k l) = afind k' l := by
  induction l with
  | nil => rfl
  | cons p rest ih =>
    obtain ⟨k0, v0⟩ := p
    by_cases hk : k0 = k
    · subst hk
      have hkk : ¬ (k0 = k') := fun he => h he.symm
      simp [aremove, afind, hkk, ih]
    · by_cases hk2 : k0 = k'
      · subst hk2
        simp [aremove, afind, hk]
      · simp [aremove, afind, hk, hk2, ih]

/-- A `Get` hit reorders the cache without changing any lookup. -/
theorem afind_get_cache (cid : Nat) (v : LogCluster) (c : Cache)
    (h : afind cid c = some v) (k : Nat) :
    afind k ((cid, v) :: aremove cid c) = afind k c := by
  by_cases hk : cid = k
  · subst hk
    simp [afind, h]
  · simp [afind, hk, afind_aremove_ne cid k c (Ne.symm hk)]

/-- `lruGet` never changes a lookup result. -/
theorem lruGet_afind (c : Cache) (k k' : Nat) :
    afind k' (lruGet c k).2 = afind k' c := by
  cases h : afind k c with
  | none => simp [lruGet, h]
  | some v => simp [lruGet, h, afind_get_cache k v c h k']

/-- The scoring loop never changes a lookup result. -/
theorem fastMatchLoop_afind (param : Str) (inc : Bool) (tokens : List Str) :
    ∀ (ids : List Nat) (cache : Cache) (ms : ℚ) (mp : Int)
      (mcl : Option LogCluster) (k : Nat),
      afind k (fastMatchLoop param inc tokens ids cache ms mp mcl).2.2.2
        = afind k cache := by
  intro ids
  induction ids with
  | nil => intro cache ms mp mcl k; rfl
  | cons cid rest ih =>
    intro cache ms mp mcl k
    cases h : afind cid cache with
    | none =>
      have hl : lruGet cache cid = (none, cache) := by simp [lruGet, h]
      simp only [fastMatchLoop, hl]
      exact ih cache ms mp mcl k
    | some v =>
      have hl : lruGet cache cid = (some v, (cid, v) :: aremove cid cache) := by
        simp [lruGet, h]
      simp only [fastMatchLoop, hl]
      split
      · rw [ih _ _ _ _ k, afind_get_cache cid v cache h k]
      · rw [ih _ _ _ _ k, afind_get_cache cid v cache h k]

/-- The scoring loop processes an appended list in two phases. -/
theorem fastMatchLoop_append (param : Str) (inc : Bool) (tokens : List Str) :
    ∀ (l1 l2 : List Nat) (cache : Cache) (ms : ℚ) (mp : Int)
      (mcl : Option LogCluster),
      fastMatchLoop param inc tokens (l1 ++ l2) cache ms mp mcl =
        fastMatchLoop param inc tokens l2
          (fastMatchLoop param inc tokens l1 cache ms mp mcl).2.2.2
          (fastMatchLoop param inc tokens l1 cache ms mp mcl).1
          (fastMatchLoop param inc tokens l1 cache ms mp mcl).2.1
          (fastMatchLoop param inc tokens l1 cache ms mp mcl).2.2.1 := by
  intro l1
  induction l1 with
  | nil => intro l2 cache ms mp mcl; rfl
  | cons cid rest ih =>
    intro l2 cache ms mp mcl
    cases h : afind cid cache with
    | none =>
      have hl : lruGet cache cid = (none, cache) := by simp [lruGet, h]
      simp only [List.cons_append, fastMatchLoop, hl]
      exact ih l2 cache ms mp mcl
    | some v =>
      have hl : lruGet cache cid = (some v, (cid, v) :: aremove cid cache) := by
        simp [lruGet, h]
      simp only [List.cons_append, fastMatchLoop, hl]
      split
      · exact ih l2 _ _ _ _
      · exact ih l2 _ _ _ _

/-- If no candidate beats the running best, the loop changes nothing but
the cache order. -/
theorem fastMatchLoop_noupdate (param : Str) (inc : Bool) (tokens : List Str) :
    ∀ (ids : List Nat) (cache : Cache) (ms : ℚ) (mp : Int)
      (mcl : Option LogCluster),
      (∀ cid ∈ ids, ∀ D, afind cid cache = some D →
        lexLe (scoreOf param inc tokens D) (ms, mp)) →
      (fastMatchLoop param inc tokens ids cache ms mp mcl).1 = ms ∧
        (fastMatchLoop param inc tokens ids cache ms mp mcl).2.1 = mp ∧
        (fastMatchLoop param inc tokens ids cache ms mp mcl).2.2.1 = mcl := by
  intro ids
  induction ids with
  | nil => intro cache ms mp mcl _; exact ⟨rfl, rfl, rfl⟩
  | cons cid rest ih =>
    intro cache ms mp mcl hall
    cases h : afind cid cache with
    | none =>
      have hl : lruGet cache cid = (none, cache) := by simp [lruGet, h]
      simp only [fastMatchLoop, hl]
      exact ih cache ms mp mcl (fun e he D hD => hall e (List.mem_cons_of_mem _ he) D hD)
    | some v =>
      have hl : lruGet cache cid = (some v, (cid, v) :: aremove cid cache) := by
        simp [lruGet, h]
      have hle := hall cid (List.mem_cons_self _ _) v h
      have hnc : ¬ ((getSeqDistance param v.Tokens tokens inc).1 > ms ∨
          ((getSeqDistance param v.Tokens tokens inc).1 = ms ∧
            ((getSeqDistance param v.Tokens tokens inc).2 : Int) > mp)) := by
        rw [update_cond_iff]
        intro hlt
        rcases hle with h1 | ⟨h1, h2⟩ <;> rcases hlt with h3 | ⟨h3, h4⟩
        · exact absurd (h1.trans h3) (lt_irrefl _)
        · exact absurd (h3 ▸ h1) (lt_irrefl _)
        · exact absurd (h1 ▸ h3) (lt_irrefl _)
        · exact absurd (lt_of_le_of_lt h2 h4) (lt_irrefl _)
      simp only [fastMatchLoop, hl]
      rw [if_neg hnc]
      refine ih _ ms mp mcl ?_
      intro e he D hD
      rw [afind_get_cache cid v cache h e] at hD
      exact hall e (List.mem_cons_of_mem _ he) D hD

/-- While every candidate scores strictly below a target, the running best
stays strictly below the target. -/
theorem fastMatchLoop_below (param : Str) (inc : Bool) (tokens : List Str)
    (target : ℚ × Int) :
    ∀ (ids : List Nat) (cache : Cache) (ms : ℚ) (mp : Int)
      (mcl : Option LogCluster),
      (∀ cid ∈ ids, ∀ D, afind cid cache = some D →
        lexLt (scoreOf param inc tokens D) target) →
      lexLt (ms, mp) target →
      lexLt ((fastMatchLoop param inc tokens ids cache ms mp mcl).1,
        (fastMatchLoop param inc tokens ids cache ms mp mcl).2.1) target := by
  intro ids
  induction ids with
  | nil => intro cache ms mp mcl _ hlt; exact hlt
  | cons cid rest ih =>
    intro cache ms mp mcl hall hlt
    cases h : afind cid cache with
    | none =>
      have hl : lruGet cache cid = (none, cache) := by simp [lruGet, h]
      simp only [fastMatchLoop, hl]
      exact ih cache ms mp mcl (fun e he D hD => hall e (List.mem_cons_of_mem _ he) D hD) hlt
    | some v =>
      have hl : lruGet cache cid = (some v, (cid, v) :: aremove cid cache) := by
        simp [lruGet, h]
      have hrest : ∀ e ∈ rest, ∀ D,
          afind e ((cid, v) :: aremove cid cache) = some D →
          lexLt (scoreOf param inc tokens D) target := by
        intro e he D hD
        rw [afind_get_cache cid v cache h e] at hD
        exact hall e (List.mem_cons_of_mem _ he) D hD
      simp only [fastMatchLoop, hl]
      split
      · exact ih _ _ _ _ hrest (hall cid (List.mem_cons_self _ _) v h)
      · exact ih _ _ _ _ hrest hlt

/-- Full characterization of the scoring fold: either nothing beat the
initial best (and every resolvable candidate is lexicographically at most
it), or the result is the score, parameter count and cluster of the last
updater — a resolvable candidate strictly beating the initial best and
every earlier resolvable candidate, and at least matching every later
one. -/
theorem fastMatchLoop_spec (param : Str) (inc : Bool) (tokens : List Str) :
    ∀ (ids : List Nat) (cache : Cache) (ms : ℚ) (mp : Int)
      (mcl : Option LogCluster),
      ((fastMatchLoop param inc tokens ids cache ms mp mcl).1 = ms ∧
        (fastMatchLoop param inc tokens ids cache ms mp mcl).2.1 = mp ∧
        (fastMatchLoop param inc tokens ids cache ms mp mcl).2.2.1 = mcl ∧
        (∀ cid ∈ ids, ∀ D, afind cid cache = some D →
          lexLe (scoreOf param inc tokens D) (ms, mp))) ∨
      (∃ l1 cid l2 C, ids = l1 ++ cid :: l2 ∧ afind cid cache = some C ∧
        (fastMatchLoop param inc tokens ids cache ms mp mcl).1
          = (scoreOf param inc tokens C).1 ∧
        (fastMatchLoop param inc tokens ids cache ms mp mcl).2.1
          = (scoreOf param inc tokens C).2 ∧
        (fastMatchLoop param inc tokens ids cache ms mp mcl).2.2.1 = some C ∧
        lexLt (ms, mp) (scoreOf param inc tokens C) ∧
        (∀ e ∈ l1, ∀ D, afind e cache = some D →
          lexLt (scoreOf param inc tokens D) (scoreOf param inc tokens C)) ∧
        (∀ e ∈ l2, ∀ D, afind e cache = some D →
          lexLe (scoreOf param inc tokens D) (scoreOf param inc tokens C))) := by
  intro ids
  induction ids with
  | nil =>
    intro cache ms mp mcl
    exact Or.inl ⟨rfl, rfl, rfl, by simp⟩
  | cons cid0 rest ih =>
    intro cache ms mp mcl
    cases h : afind cid0 cache with
    | none =>
      have hl : lruGet cache cid0 = (none, cache) := by simp [lruGet, h]
      rcases ih cache ms mp mcl with ⟨e1, e2, e3, hall⟩ | ⟨l1, cid, l2, C, heq, hfind, r1, r2, r3, hgt, hl1, hl2⟩
      · refine Or.inl ?_
        simp only [fastMatchLoop, hl]
        refine ⟨e1, e2, e3, ?_⟩
        intro e he D hD
        rcases List.mem_cons.mp he with he0 | he0
        · rw [he0] at hD; rw [h] at hD; cases hD
        · exact hall e he0 D hD
      · refine Or.inr ⟨cid0 :: l1, cid, l2, C, by simp [heq], hfind, ?_, ?_, ?_, hgt, ?_, hl2⟩
        · simp only [fastMatchLoop, hl]; exact r1
        · simp only [fastMatchLoop, hl]; exact r2
        · simp only [fastMatchLoop, hl]; exact r3
        · intro e he D hD
          rcases List.mem_cons.mp he with he0 | he0
          · rw [he0] at hD; rw [h] at hD; cases hD
          · exact hl1 e he0 D hD
    | some v =>
      have hl : lruGet cache cid0 = (some v, (cid0, v) :: aremove cid0 cache) := by
        simp [lruGet, h]
      have hca := afind_get_cache cid0 v cache h
      by_cases hc : (getSeqDistance param v.Tokens tokens inc).1 > ms ∨
          ((getSeqDistance param v.Tokens tokens inc).1 = ms ∧
            ((getSeqDistance param v.Tokens tokens inc).2 : Int) > mp)
      · have hvlt : lexLt (ms, mp) (scoreOf param inc tokens v) :=
          (update_cond_iff _ _ ms mp).mp hc
        rcases ih ((cid0, v) :: aremove cid0 cache)
            (getSeqDistance param v.Tokens tokens inc).1
            ((getSeqDistance param v.Tokens tokens inc).2 : Int) (some v) with
          ⟨e1, e2, e3, hall⟩ | ⟨l1, cid, l2, C, heq, hfind, r1, r2, r3, hgt, hl1, hl2⟩
        · refine Or.inr ⟨[], cid0, rest, v, rfl, h, ?_, ?_, ?_, hvlt, by simp, ?_⟩
          · simp only [fastMatchLoop, hl]; rw [if_pos hc]; exact e1
          · simp only [fastMatchLoop, hl]; rw [if_pos hc]; exact e2
          · simp only [fastMatchLoop, hl]; rw [if_pos hc]; exact e3
          · intro e he D hD
            exact hall e he D (by rw [hca e]; exact hD)
        · refine Or.inr ⟨cid0 :: l1, cid, l2, C, by simp [heq], by rw [← hca cid]; exact hfind,
            ?_, ?_, ?_, lexLt_trans hvlt hgt, ?_, ?_⟩
          · simp only [fastMatchLoop, hl]; rw [if_pos hc]; exact r1
          · simp only [fastMatchLoop, hl]; rw [if_pos hc]; exact r2
          · simp only [fastMatchLoop, hl]; rw [if_pos hc]; exact r3
          · intro e he D hD
            rcases List.mem_cons.mp he with he0 | he0
            · rw [he0] at hD; rw [h] at hD
              cases hD
              exact hgt
            · exact hl1 e he0 D (by rw [hca e]; exact hD)
          · intro e he D hD
            exact hl2 e he D (by rw [hca e]; exact hD)
      · have hvle : lexLe (scoreOf param inc tokens v) (ms, mp) :=
          lexLe_of_not_lt ((update_cond_iff _ _ ms mp).not.mp hc)
        rcases ih ((cid0, v) :: aremove cid0 cache) ms mp mcl with
          ⟨e1, e2, e3, hall⟩ | ⟨l1, cid, l2, C, heq, hfind, r1, r2, r3, hgt, hl1, hl2⟩
        · refine Or.inl ?_
          simp only [fastMatchLoop, hl]
          rw [if_neg hc]
          refine ⟨e1, e2, e3, ?_⟩
          intro e he D hD
          rcases List.mem_cons.mp he with he0 | he0
          · rw [he0] at hD; rw [h] at hD
            cases hD
            exact hvle
          · exact hall e he0 D (by rw [hca e]; exact hD)
        · refine Or.inr ⟨cid0 :: l1, cid, l2, C, by simp [heq], by rw [← hca cid]; exact hfind,
            ?_, ?_, ?_, hgt, ?_, ?_⟩
          · simp only [fastMatchLoop, hl]; rw [if_neg hc]; exact r1
          · simp only [fastMatchLoop, hl]; rw [if_neg hc]; exact r2
          · simp only [fastMatchLoop, hl]; rw [if_neg hc]; exact r3
          · intro e he D hD
            rcases List.mem_cons.mp he with he0 | he0
            · rw [he0] at hD; rw [h] at hD
              cases hD
              exact lexLt_of_lexLe_of_lexLt hvle hgt
            · exact hl1 e he0 D (by rw [hca e]; exact hD)
          · intro e he D hD
            exact hl2 e he D (by rw [hca e]; exact hD)

/-! ## Reachability and the structural invariant (for claims C5 and C8) -/

/-- Occurrence of one node inside (the subtree of) another. -/
inductive SubNode : Node → Node → Prop where
  | refl (t : Node) : SubNode t t
  | child {sub c : Node} {k : Str} {t : Node} :
      (k, c) ∈ t.children → SubNode sub c → SubNode sub t

/-- A cluster id stored somewhere in a node's subtree. -/
def treeHasId (id : Nat) (t : Node) : Prop :=
  ∃ sub, SubNode sub t ∧ id ∈ sub.clusterIDs

theorem treeHasId_here {id : Nat} {t : Node} (h : id ∈ t.clusterIDs) :
    treeHasId id t :=
  ⟨t, SubNode.refl t, h⟩

theorem treeHasId_child {id : Nat} {k : Str} {c t : Node}
    (hm : (k, c) ∈ t.children) (h : treeHasId id c) : treeHasId id t := by
  obtain ⟨sub, hs, hid⟩ := h
  exact ⟨sub, SubNode.child hm hs, hid⟩

theorem subNode_inv {sub : Node} {cs : List (Str × Node)} {ids : List Nat}
    (h : SubNode sub (Node.mk cs ids)) :
    sub = Node.mk cs ids ∨ ∃ k c, (k, c) ∈ cs ∧ SubNode sub c := by
  cases h with
  | refl => exact Or.inl rfl
  | child hm hs => exact Or.inr ⟨_, _, hm, hs⟩

theorem treeHasId_inv {id : Nat} {cs : List (Str × Node)} {ids : List Nat}
    (h : treeHasId id (Node.mk cs ids)) :
    id ∈ ids ∨ ∃ k c, (k, c) ∈ cs ∧ treeHasId id c := by
  obtain ⟨sub, hs, hid⟩ := h
  rcases subNode_inv hs with h1 | ⟨k, c, hm, hs'⟩
  · subst h1; exact Or.inl hid
  · exact Or.inr ⟨k, c, hm, sub, hs', hid⟩

theorem treeHasId_createNode {id : Nat} : ¬ treeHasId id createNode := by
  intro h
  rcases treeHasId_inv h with h1 | ⟨k, c, hm, _⟩
  · cases h1
  · cases hm

theorem subNode_createNode {sub : Node} (h : SubNode sub createNode) :
    sub = createNode := by
  rcases subNode_inv h with h1 | ⟨k, c, hm, _⟩
  · exact h1
  · cases hm

/-- Engine states reachable from a given state by `Train` and `Match`
calls. -/
inductive ReachFrom : DrainState → DrainState → Prop where
  | refl (s : DrainState) : ReachFrom s s
  | train {s s' : DrainState} (content : Str) (ts : Int) :
      ReachFrom s s' → ReachFrom s (Train s' content ts).2
  | lookup {s s' : DrainState} (content : Str) :
      ReachFrom s s' → ReachFrom s (GoMatch s' content).2

/-! ### Association list facts -/

theorem afind_mem {κ : Type} [DecidableEq κ] {α : Type} {k : κ} {v : α} :
    ∀ {l : List (κ × α)}, afind k l = some v → (k, v) ∈ l := by
  intro l
  induction l with
  | nil => intro h; cases h
  | cons p rest ih =>
    intro h
    obtain ⟨k0, v0⟩ := p
    by_cases hk : k0 = k
    · subst hk
      simp only [afind, if_pos rfl] at h
      cases h
      exact List.mem_cons_self _ _
    · simp only [afind, if_neg hk] at h
      exact List.mem_cons_of_mem _ (ih h)

theorem afind_eq_none_iff {κ : Type} [DecidableEq κ] {α : Type} {k : κ} :
    ∀ {l : List (κ × α)}, afind k l = none ↔ k ∉ l.map (fun p => p.1) := by
  intro l
  induction l with
  | nil => simp [afind]
  | cons p rest ih =>
    obtain ⟨k0, v0⟩ := p
    by_cases hk : k0 = k
    · subst hk
      simp [afind]
    · simp [afind, hk, ih, Ne.symm hk]

theorem mem_afind_of_nodup {κ : Type} [DecidableEq κ] {α : Type} {k : κ} {v : α} :
    ∀ {l : List (κ × α)}, (l.map (fun p => p.1)).Nodup → (k, v) ∈ l →
      afind k l = some v := by
  intro l
  induction l with
  | nil => intro _ h; cases h
  | cons p rest ih =>
    intro hnd h
    obtain ⟨k0, v0⟩ := p
    simp only [List.map_cons, List.nodup_cons] at hnd
    rcases List.mem_cons.mp h with h1 | h1
    · cases h1
      simp [afind]
    · have hk : k0 ≠ k := by
        intro he
        subst he
        exact hnd.1 (List.mem_map.mpr ⟨(k0, v), h1, rfl⟩)
      simp [afind, hk, ih hnd.2 h1]

theorem mem_aremove {κ : Type} [DecidableEq κ] {α : Type} {k : κ} {p : κ × α} :
    ∀ {l : List (κ × α)}, p ∈ aremove k l ↔ p ∈ l ∧ p.1 ≠ k := by
  intro l
  induction l with
  | nil => simp [aremove]
  | cons q rest ih =>
    obtain ⟨k0, v0⟩ := q
    by_cases hk : k0 = k
    · subst hk
      have he : aremove k0 ((k0, v0) :: rest) = aremove k0 rest := by
        simp [aremove]
      rw [he, ih]
      constructor
      · rintro ⟨h1, h2⟩
        exact ⟨List.mem_cons_of_mem _ h1, h2⟩
      · rintro ⟨h1, h2⟩
        rcases List.mem_cons.mp h1 with h3 | h3
        · rw [h3] at h2
          exact absurd rfl h2
        · exact ⟨h3, h2⟩
    · have he : aremove k ((k0, v0) :: rest) = (k0, v0) :: aremove k rest := by
        simp [aremove, hk]
      rw [he]
      constructor
      · intro h1
        rcases List.mem_cons.mp h1 with h3 | h3
        · rw [h3]
          exact ⟨List.mem_cons_self _ _, hk⟩
        · obtain ⟨h4, h5⟩ := ih.mp h3
          exact ⟨List.mem_cons_of_mem _ h4, h5⟩
      · rintro ⟨h1, h2⟩
        rcases List.mem_cons.mp h1 with h3 | h3
        · rw [h3]
          exact List.mem_cons_self _ _
        · exact List.mem_cons_of_mem _ (ih.mpr ⟨h3, h2⟩)

theorem map_fst_aremove {κ : Type} [DecidableEq κ] {α : Type} (k : κ) :
    ∀ (l : List (κ × α)),
      (aremove k l).map (fun p => p.1) =
        (l.map (fun p => p.1)).filter (fun x => decide (x ≠ k)) := by
  intro l
  induction l with
  | nil => rfl
  | cons q rest ih =>
    obtain ⟨k0, v0⟩ := q
    by_cases hk : k0 = k
    · subst hk
      simp [aremove, List.filter, ih]
    · simp [aremove, hk, List.filter, ih]

theorem mem_aset {κ : Type} [DecidableEq κ] {α : Type} {k : κ} {v : α}
    {p : κ × α} : ∀ {l : List (κ × α)}, p ∈ aset k v l → p = (k, v) ∨ p ∈ l := by
  intro l
  induction l with
  | nil =>
    intro h
    simp only [aset] at h
    rcases List.mem_cons.mp h with h1 | h1
    · exact Or.inl h1
    · cases h1
  | cons q rest ih =>
    intro h
    obtain ⟨k0, v0⟩ := q
    by_cases hk : k0 = k
    · subst hk
      simp only [aset, if_pos rfl] at h
      rcases List.mem_cons.mp h with h1 | h1
      · exact Or.inl h1
      · exact Or.inr (List.mem_cons_of_mem _ h1)
    · simp only [aset, if_neg hk] at h
      rcases List.mem_cons.mp h with h1 | h1
      · exact Or.inr (h1 ▸ List.mem_cons_self _ _)
      · rcases ih h1 with h2 | h2
        · exact Or.inl h2
        · exact Or.inr (List.mem_cons_of_mem _ h2)

theorem aset_afind_self {κ : Type} [DecidableEq κ] {α : Type} (k : κ) (v : α) :
    ∀ (l : List (κ × α)), afind k (aset k v l) = some v := by
  intro l
  induction l with
  | nil => simp [aset, afind]
  | cons q rest ih =>
    obtain ⟨k0, v0⟩ := q
    by_cases hk : k0 = k
    · subst hk
      simp [aset, afind]
    · simp [aset, afind, hk, ih]

theorem aset_afind_ne {κ : Type} [DecidableEq κ] {α : Type} {k k' : κ} (v : α)
    (h : k' ≠ k) : ∀ (l : List (κ × α)), afind k' (aset k v l) = afind k' l := by
  have hks : ¬ (k = k') := fun he => h he.symm
  intro l
  induction l with
  | nil => simp [aset, afind, hks]
  | cons q rest ih =>
    obtain ⟨k0, v0⟩ := q
    by_cases hk : k0 = k
    · subst hk
      simp [aset, afind, hks]
    · simp [aset, afind, hk, ih]

theorem aset_length_of_found {κ : Type} [DecidableEq κ] {α : Type} {k : κ}
    (v : α) : ∀ {l : List (κ × α)} {w : α}, afind k l = some w →
      (aset k v l).length = l.length := by
  intro l
  induction l with
  | nil => intro w h; cases h
  | cons q rest ih =>
    intro w h
    obtain ⟨k0, v0⟩ := q
    by_cases hk : k0 = k
    · subst hk
      simp [aset]
    · simp only [afind, if_neg hk] at h
      simp [aset, hk, ih h]

theorem aset_length_of_fresh {κ : Type} [DecidableEq κ] {α : Type} {k : κ}
    (v : α) : ∀ {l : List (κ × α)}, afind k l = none →
      (aset k v l).length = l.length + 1 := by
  intro l
  induction l with
  | nil => intro _; rfl
  | cons q rest ih =>
    intro h
    obtain ⟨k0, v0⟩ := q
    by_cases hk : k0 = k
    · subst hk
      simp [afind] at h
    · simp only [afind, if_neg hk] at h
      simp [aset, hk, ih h]

theorem aset_map_fst_of_found {κ : Type} [DecidableEq κ] {α : Type} {k : κ}
    (v : α) : ∀ {l : List (κ × α)} {w : α}, afind k l = some w →
      (aset k v l).map (fun p => p.1) = l.map (fun p => p.1) := by
  intro l
  induction l with
  | nil => intro w h; cases h
  | cons q rest ih =>
    intro w h
    obtain ⟨k0, v0⟩ := q
    by_cases hk : k0 = k
    · subst hk
      simp [aset]
    · simp only [afind, if_neg hk] at h
      simp [aset, hk, ih h]

/-! ### Cache operation preservation -/

/-- Bundle: a cache evolved only by recency reordering — lookups,
membership and key-uniqueness are all preserved. -/
def CacheSim (c' c : Cache) : Prop :=
  (∀ k, afind k c' = afind k c) ∧ (∀ p, p ∈ c' ↔ p ∈ c) ∧
    ((c.map (fun p => p.1)).Nodup → (c'.map (fun p => p.1)).Nodup)

theorem CacheSim.refl (c : Cache) : CacheSim c c :=
  ⟨fun _ => rfl, fun _ => Iff.rfl, fun h => h⟩

theorem CacheSim.trans {c1 c2 c3 : Cache} (h12 : CacheSim c1 c2)
    (h23 : CacheSim c2 c3) : CacheSim c1 c3 :=
  ⟨fun k => (h12.1 k).trans (h23.1 k), fun p => (h12.2.1 p).trans (h23.2.1 p),
    fun h => h12.2.2 (h23.2.2 h)⟩

theorem lruGet_sim (c : Cache) (k : Nat) (hnd : (c.map (fun p => p.1)).Nodup) :
    CacheSim (lruGet c k).2 c := by
  cases h : afind k c with
  | none => simp only [lruGet, h]; exact CacheSim.refl c
  | some v =>
    have hres : (lruGet c k).2 = (k, v) :: aremove k c := by simp [lruGet, h]
    rw [hres]
    refine ⟨afind_get_cache k v c h, ?_, ?_⟩
    · intro p
      obtain ⟨pk, pv⟩ := p
      constructor
      · intro hp
        rcases List.mem_cons.mp hp with h1 | h1
        · rw [h1]
          exact afind_mem h
        · exact (mem_aremove.mp h1).1
      · intro hp
        by_cases hpk : pk = k
        · subst hpk
          have := mem_afind_of_nodup hnd hp
          rw [h] at this
          cases this
          exact List.mem_cons_self _ _
        · exact List.mem_cons_of_mem _ (mem_aremove.mpr ⟨hp, hpk⟩)
    · intro _
      simp only [List.map_cons, List.nodup_cons]
      constructor
      · intro hmem
        rw [map_fst_aremove] at hmem
        rcases List.mem_filter.mp hmem with ⟨_, hne⟩
        simp at hne
      · rw [map_fst_aremove]
        exact hnd.filter _

theorem filterLive_sim : ∀ (ids : List Nat) (cache : Cache),
    (cache.map (fun p => p.1)).Nodup →
      CacheSim (filterLive cache ids).2 cache ∧ (filterLive cache ids).1 ⊆ ids := by
  intro ids
  induction ids with
  | nil => intro cache _; exact ⟨CacheSim.refl cache, by simp [filterLive]⟩
  | cons cid rest ih =>
    intro cache hnd
    cases h : afind cid cache with
    | none =>
      have hl : lruGet cache cid = (none, cache) := by simp [lruGet, h]
      have := ih cache hnd
      refine ⟨?_, ?_⟩
      · simp only [filterLive, hl]
        exact this.1
      · simp only [filterLive, hl]
        exact fun x hx => List.mem_cons_of_mem _ (this.2 hx)
    | some v =>
      have hl : lruGet cache cid = (some v, (cid, v) :: aremove cid cache) := by
        simp [lruGet, h]
      have hsim1 : CacheSim ((cid, v) :: aremove cid cache) cache := by
        have := lruGet_sim cache cid hnd
        rw [hl] at this
        exact this
      have hnd1 := hsim1.2.2 hnd
      have := ih ((cid, v) :: aremove cid cache) hnd1
      refine ⟨?_, ?_⟩
      · simp only [filterLive, hl]
        exact CacheSim.trans this.1 hsim1
      · simp only [filterLive, hl]
        intro x hx
        rcases List.mem_cons.mp hx with h1 | h1
        · exact h1 ▸ List.mem_cons_self _ _
        · exact List.mem_cons_of_mem _ (this.2 h1)

theorem fastMatchLoop_sim (param : Str) (inc : Bool) (tokens : List Str) :
    ∀ (ids : List Nat) (cache : Cache) (ms : ℚ) (mp : Int)
      (mcl : Option LogCluster), (cache.map (fun p => p.1)).Nodup →
      CacheSim (fastMatchLoop param inc tokens ids cache ms mp mcl).2.2.2 cache := by
  intro ids
  induction ids with
  | nil => intro cache ms mp mcl _; exact CacheSim.refl cache
  | cons cid rest ih =>
    intro cache ms mp mcl hnd
    cases h : afind cid cache with
    | none =>
      have hl : lruGet cache cid = (none, cache) := by simp [lruGet, h]
      simp only [fastMatchLoop, hl]
      exact ih cache ms mp mcl hnd
    | some v =>
      have hl : lruGet cache cid = (some v, (cid, v) :: aremove cid cache) := by
        simp [lruGet, h]
      have hsim1 : CacheSim ((cid, v) :: aremove cid cache) cache := by
        have := lruGet_sim cache cid hnd
        rw [hl] at this
        exact this
      have hnd1 := hsim1.2.2 hnd
      simp only [fastMatchLoop, hl]
      split
      · exact CacheSim.trans (ih _ _ _ _ hnd1) hsim1
      · exact CacheSim.trans (ih _ _ _ _ hnd1) hsim1

theorem insertWalk_sim (cfg : Config) (cid n : Nat) :
    ∀ (toks : List Str) (d : Nat) (cur : Node) (cache : Cache),
      (cache.map (fun p => p.1)).Nodup →
      CacheSim (insertWalk cfg cid n toks d cur cache).2 cache := by
  intro toks
  induction toks with
  | nil =>
    intro d cur cache hnd
    by_cases hbr : cfg.maxNodeDepth ≤ d ∨ n ≤ d
    · simp only [insertWalk, if_pos hbr, leafAppend]
      exact (filterLive_sim cur.clusterIDs cache hnd).1
    · simp only [insertWalk, if_neg hbr]
      exact CacheSim.refl cache
  | cons tok rest ih =>
    intro d cur cache hnd
    by_cases hbr : cfg.maxNodeDepth ≤ d ∨ n ≤ d
    · simp only [insertWalk, if_pos hbr, leafAppend]
      exact (filterLive_sim cur.clusterIDs cache hnd).1
    · simp only [insertWalk, if_neg hbr]
      cases hf : afind tok cur.children with
      | some child => exact ih (d + 1) child cache hnd
      | none =>
        dsimp only
        by_cases hnum : hasNumbers tok
        · rw [if_pos hnum]
          cases hp : afind cfg.ParamString cur.children with
          | some w => exact ih (d + 1) w cache hnd
          | none => exact ih (d + 1) createNode cache hnd
        · rw [if_neg hnum]
          cases hp : afind cfg.ParamString cur.children with
          | some w =>
            dsimp only
            by_cases h1 : cur.children.length < cfg.MaxChildren
            · rw [if_pos h1]; exact ih (d + 1) createNode cache hnd
            · rw [if_neg h1]; exact ih (d + 1) w cache hnd
          | none =>
            dsimp only
            by_cases h1 : cur.children.length + 1 < cfg.MaxChildren
            · rw [if_pos h1]; exact ih (d + 1) createNode cache hnd
            · rw [if_neg h1]
              by_cases h2 : cur.children.length + 1 = cfg.MaxChildren
              · rw [if_pos h2]; exact ih (d + 1) createNode cache hnd
              · rw [if_neg h2]; exact CacheSim.refl cache

theorem afind_dropLast {κ : Type} [DecidableEq κ] {α : Type} {k : κ} {w : α} :
    ∀ {l : List (κ × α)}, afind k l.dropLast = some w → afind k l = some w := by
  intro l
  induction l with
  | nil => intro h; cases h
  | cons p rest ih =>
    intro h
    obtain ⟨k0, v0⟩ := p
    cases rest with
    | nil => cases h
    | cons q rest' =>
      rw [List.dropLast_cons₂] at h
      by_cases hk : k0 = k
      · subst hk
        simp only [afind, if_pos rfl] at h ⊢
        exact h
      · simp only [afind, if_neg hk] at h ⊢
        exact ih h

theorem lruAdd_fresh_afind_self (cap : Nat) (c : Cache) (k : Nat) (v : LogCluster)
    (hcap : 1 ≤ cap) (hfresh : afind k c = none) :
    afind k (lruAdd cap c k v) = some v := by
  simp only [lruAdd, hfresh]
  by_cases hlen : cap < ((k, v) :: c).length
  · rw [if_pos hlen]
    cases c with
    | nil => simp at hlen; omega
    | cons q rest =>
      rw [List.dropLast_cons₂]
      simp [afind]
  · rw [if_neg hlen]
    simp [afind]

theorem lruAdd_fresh_afind {cap : Nat} {c : Cache} {k : Nat} {v : LogCluster}
    {k' : Nat} {w : LogCluster} (hfresh : afind k c = none)
    (h : afind k' (lruAdd cap c k v) = some w) :
    (k' = k ∧ w = v) ∨ afind k' c = some w := by
  simp only [lruAdd, hfresh] at h
  have hcons : afind k' ((k, v) :: c) = some w →
      (k' = k ∧ w = v) ∨ afind k' c = some w := by
    intro hc
    by_cases hk : k = k'
    · subst hk
      simp only [afind, if_pos rfl] at hc
      cases hc
      exact Or.inl ⟨rfl, rfl⟩
    · simp only [afind, if_neg hk] at hc
      exact Or.inr hc
  by_cases hlen : cap < ((k, v) :: c).length
  · rw [if_pos hlen] at h
    exact hcons (afind_dropLast h)
  · rw [if_neg hlen] at h
    exact hcons h

theorem lruAdd_fresh_mem {cap : Nat} {c : Cache} {k : Nat} {v : LogCluster}
    {p : Nat × LogCluster} (hfresh : afind k c = none)
    (h : p ∈ lruAdd cap c k v) : p = (k, v) ∨ p ∈ c := by
  simp only [lruAdd, hfresh] at h
  have hcons : p ∈ (k, v) :: c → p = (k, v) ∨ p ∈ c := fun hc =>
    List.mem_cons.mp hc
  by_cases hlen : cap < ((k, v) :: c).length
  · rw [if_pos hlen] at h
    exact hcons ((List.dropLast_sublist _).subset h)
  · rw [if_neg hlen] at h
    exact hcons h

theorem lruAdd_fresh_nodup {cap : Nat} {c : Cache} {k : Nat} {v : LogCluster}
    (hnd : (c.map (fun p => p.1)).Nodup) (hfresh : afind k c = none) :
    ((lruAdd cap c k v).map (fun p => p.1)).Nodup := by
  simp only [lruAdd, hfresh]
  have hk : k ∉ c.map (fun p => p.1) := afind_eq_none_iff.mp hfresh
  have hcons : (((k, v) :: c).map (fun p => p.1)).Nodup := by
    simp only [List.map_cons, List.nodup_cons]
    exact ⟨hk, hnd⟩
  by_cases hlen : cap < ((k, v) :: c).length
  · rw [if_pos hlen, List.map_dropLast]
    exact (List.dropLast_sublist _).nodup hcons
  · rw [if_neg hlen]
    exact hcons

theorem awrite_map_fst {κ : Type} [DecidableEq κ] {α : Type} (k : κ) (v : α) :
    ∀ (l : List (κ × α)), (awrite k v l).map (fun p => p.1) = l.map (fun p => p.1) := by
  intro l
  induction l with
  | nil => rfl
  | cons q rest ih =>
    obtain ⟨k0, v0⟩ := q
    by_cases hk : k0 = k
    · subst hk
      simp [awrite]
    · simp [awrite, hk, ih]

theorem awrite_afind_hit {κ : Type} [DecidableEq κ] {α : Type} {k : κ} (v : α) :
    ∀ {l : List (κ × α)} {w : α}, afind k l = some w →
      afind k (awrite k v l) = some v := by
  intro l
  induction l with
  | nil => intro w h; cases h
  | cons q rest ih =>
    intro w h
    obtain ⟨k0, v0⟩ := q
    by_cases hk : k0 = k
    · subst hk
      simp [awrite, afind]
    · simp only [afind, if_neg hk] at h
      simp [awrite, afind, hk, ih h]

theorem awrite_afind_ne {κ : Type} [DecidableEq κ] {α : Type} {k k' : κ} (v : α)
    (h : k' ≠ k) : ∀ (l : List (κ × α)), afind k' (awrite k v l) = afind k' l := by
  have hks : ¬ (k = k') := fun he => h he.symm
  intro l
  induction l with
  | nil => rfl
  | cons q rest ih =>
    obtain ⟨k0, v0⟩ := q
    by_cases hk : k0 = k
    · subst hk
      simp [awrite, afind, hks]
    · simp [awrite, afind, hk, ih]

theorem mem_awrite {κ : Type} [DecidableEq κ] {α : Type} {k : κ} {v : α}
    {p : κ × α} : ∀ {l : List (κ × α)}, p ∈ awrite k v l → p = (k, v) ∨ p ∈ l := by
  intro l
  induction l with
  | nil => intro h; cases h
  | cons q rest ih =>
    intro h
    obtain ⟨k0, v0⟩ := q
    by_cases hk : k0 = k
    · subst hk
      rcases List.mem_cons.mp (by simpa [awrite] using h) with h1 | h1
      · exact Or.inl h1
      · exact Or.inr (List.mem_cons_of_mem _ h1)
    · rcases List.mem_cons.mp (by simpa [awrite, hk] using h) with h1 | h1
      · exact Or.inr (h1 ▸ List.mem_cons_self _ _)
      · rcases ih h1 with h2 | h2
        · exact Or.inl h2
        · exact Or.inr (List.mem_cons_of_mem _ h2)

/-! ### Tree walk lemmas -/

/-- The node reached by `searchWalk` lies in the subtree it started from. -/
theorem searchWalk_sub (maxD n : Nat) (param : Str) :
    ∀ (toks : List Str) (d : Nat) (cur leaf : Node),
      searchWalk maxD n param toks d cur = some leaf → SubNode leaf cur := by
  intro toks
  induction toks with
  | nil =>
    intro d cur leaf h
    cases h
    exact SubNode.refl _
  | cons tok rest ih =>
    intro d cur leaf h
    by_cases h1 : maxD ≤ d
    · rw [searchWalk, if_pos h1] at h
      cases h
      exact SubNode.refl _
    · rw [searchWalk, if_neg h1] at h
      by_cases h2 : d = n
      · rw [if_pos h2] at h
        cases h
        exact SubNode.refl _
      · rw [if_neg h2] at h
        cases hf : afind tok cur.children with
        | some nxt =>
          rw [hf] at h
          exact SubNode.child (afind_mem hf) (ih (d + 1) nxt leaf h)
        | none =>
          rw [hf] at h
          cases hp : afind param cur.children with
          | some nxt =>
            rw [hp] at h
            exact SubNode.child (afind_mem hp) (ih (d + 1) nxt leaf h)
          | none =>
            rw [hp] at h
            cases h

theorem filterLive_subset : ∀ (ids : List Nat) (cache : Cache),
    (filterLive cache ids).1 ⊆ ids := by
  intro ids
  induction ids with
  | nil => intro cache; simp [filterLive]
  | cons cid rest ih =>
    intro cache
    cases h : afind cid cache with
    | none =>
      have hl : lruGet cache cid = (none, cache) := by simp [lruGet, h]
      simp only [filterLive, hl]
      exact fun x hx => List.mem_cons_of_mem _ (ih cache hx)
    | some v =>
      have hl : lruGet cache cid = (some v, (cid, v) :: aremove cid cache) := by
        simp [lruGet, h]
      simp only [filterLive, hl]
      intro x hx
      rcases List.mem_cons.mp hx with h1 | h1
      · exact h1 ▸ List.mem_cons_self _ _
      · exact List.mem_cons_of_mem _ (ih _ h1)

/-- Insertion only ever adds the new cluster's id to the subtree. -/
theorem insertWalk_hasId (cfg : Config) (cid n : Nat) :
    ∀ (toks : List Str) (d : Nat) (cur : Node) (cache : Cache) (id : Nat),
      treeHasId id (insertWalk cfg cid n toks d cur cache).1 →
      treeHasId id cur ∨ id = cid := by
  have hbreak : ∀ (cur : Node) (cache : Cache) (id : Nat),
      treeHasId id (leafAppend cache cur cid).1 → treeHasId id cur ∨ id = cid := by
    intro cur cache id h
    simp only [leafAppend] at h
    rcases treeHasId_inv h with h1 | ⟨k, c, hm, hc⟩
    · rcases List.mem_append.mp h1 with h2 | h2
      · exact Or.inl (treeHasId_here (filterLive_subset _ _ h2))
      · simp only [List.mem_singleton] at h2
        exact Or.inr h2
    · exact Or.inl (treeHasId_child hm hc)
  intro toks
  induction toks with
  | nil =>
    intro d cur cache id h
    by_cases hbr : cfg.maxNodeDepth ≤ d ∨ n ≤ d
    · rw [insertWalk, if_pos hbr] at h
      exact hbreak cur cache id h
    · rw [insertWalk, if_neg hbr] at h
      exact Or.inl h
  | cons tok rest ih =>
    intro d cur cache id h
    by_cases hbr : cfg.maxNodeDepth ≤ d ∨ n ≤ d
    · rw [insertWalk, if_pos hbr] at h
      exact hbreak cur cache id h
    · rw [insertWalk, if_neg hbr] at h
      have hstep : ∀ (K : Str) (start : Node),
          (start = createNode ∨ ∃ k0, afind k0 cur.children = some start) →
          treeHasId id (Node.mk
            (aset K (insertWalk cfg cid n rest (d + 1) start cache).1 cur.children)
            cur.clusterIDs) →
          treeHasId id cur ∨ id = cid := by
        intro K start hstart hx
        rcases treeHasId_inv hx with h1 | ⟨k, c, hm, hc⟩
        · exact Or.inl (treeHasId_here h1)
        · rcases mem_aset hm with h2 | h2
          · have hcc : c = (insertWalk cfg cid n rest (d + 1) start cache).1 :=
              congrArg Prod.snd h2
            rw [hcc] at hc
            rcases ih (d + 1) start cache id hc with h3 | h3
            · rcases hstart with h4 | ⟨k0, hk0⟩
              · rw [h4] at h3
                exact absurd h3 treeHasId_createNode
              · exact Or.inl (treeHasId_child (afind_mem hk0) h3)
            · exact Or.inr h3
          · exact Or.inl (treeHasId_child h2 hc)
      cases hf : afind tok cur.children with
      | some child =>
        rw [hf] at h
        exact hstep tok child (Or.inr ⟨tok, hf⟩) h
      | none =>
        rw [hf] at h
        dsimp only at h
        by_cases hnum : hasNumbers tok
        · rw [if_pos hnum] at h
          cases hp : afind cfg.ParamString cur.children with
          | some w =>
            rw [hp] at h
            exact hstep cfg.ParamString w (Or.inr ⟨cfg.ParamString, hp⟩) h
          | none =>
            rw [hp] at h
            exact hstep cfg.ParamString createNode (Or.inl rfl) h
        · rw [if_neg hnum] at h
          cases hp : afind cfg.ParamString cur.children with
          | some w =>
            rw [hp] at h
            dsimp only at h
            by_cases h1 : cur.children.length < cfg.MaxChildren
            · rw [if_pos h1] at h
              exact hstep tok createNode (Or.inl rfl) h
            · rw [if_neg h1] at h
              exact hstep cfg.ParamString w (Or.inr ⟨cfg.ParamString, hp⟩) h
          | none =>
            rw [hp] at h
            dsimp only at h
            by_cases h1 : cur.children.length + 1 < cfg.MaxChildren
            · rw [if_pos h1] at h
              exact hstep tok createNode (Or.inl rfl) h
            · rw [if_neg h1] at h
              by_cases h2 : cur.children.length + 1 = cfg.MaxChildren
              · rw [if_pos h2] at h
                exact hstep cfg.ParamString createNode (Or.inl rfl) h
              · rw [if_neg h2] at h
                exact Or.inl h

/-- The per-node branching bound: at most `maxC` children, and if the
wildcard child is absent, strictly fewer than `maxC` (so there is always
room for the wildcard). -/
def childBoundP (maxC : Nat) (param : Str) (sub : Node) : Prop :=
  sub.children.length ≤ maxC ∧
    (afind param sub.children = none → sub.children.length < maxC)

/-- Insertion preserves the branching bound on every node of the subtree
(for `MaxChildren ≥ 1`). -/
theorem insertWalk_bound (cfg : Config) (cid n : Nat)
    (hMax : 1 ≤ cfg.MaxChildren) :
    ∀ (toks : List Str) (d : Nat) (cur : Node) (cache : Cache),
      (∀ sub, SubNode sub cur → childBoundP cfg.MaxChildren cfg.ParamString sub) →
      ∀ sub, SubNode sub (insertWalk cfg cid n toks d cur cache).1 →
        childBoundP cfg.MaxChildren cfg.ParamString sub := by
  have hbreak : ∀ (cur : Node) (cache : Cache),
      (∀ sub, SubNode sub cur → childBoundP cfg.MaxChildren cfg.ParamString sub) →
      ∀ sub, SubNode sub (leafAppend cache cur cid).1 →
        childBoundP cfg.MaxChildren cfg.ParamString sub := by
    intro cur cache hcur sub hs
    simp only [leafAppend] at hs
    rcases subNode_inv hs with h1 | ⟨k, c, hm, hc⟩
    · subst h1
      exact hcur cur (SubNode.refl cur)
    · exact hcur sub (SubNode.child hm hc)
  intro toks
  induction toks with
  | nil =>
    intro d cur cache hcur sub hs
    by_cases hbr : cfg.maxNodeDepth ≤ d ∨ n ≤ d
    · rw [insertWalk, if_pos hbr] at hs
      exact hbreak cur cache hcur sub hs
    · rw [insertWalk, if_neg hbr] at hs
      exact hcur sub hs
  | cons tok rest ih =>
    intro d cur cache hcur sub hs
    by_cases hbr : cfg.maxNodeDepth ≤ d ∨ n ≤ d
    · rw [insertWalk, if_pos hbr] at hs
      exact hbreak cur cache hcur sub hs
    · rw [insertWalk, if_neg hbr] at hs
      have hstart : ∀ (start : Node),
          (start = createNode ∨ ∃ k0, afind k0 cur.children = some start) →
          ∀ sub', SubNode sub' start →
            childBoundP cfg.MaxChildren cfg.ParamString sub' := by
        intro start h0 sub' hs'
        rcases h0 with h0 | ⟨k0, hk0⟩
        · rw [h0] at hs'
          rw [subNode_createNode hs']
          exact ⟨by simp [createNode, Node.children], fun _ => by
            simp [createNode, Node.children]; omega⟩
        · exact hcur sub' (SubNode.child (afind_mem hk0) hs')
      have hstep : ∀ (K : Str) (start : Node),
          (start = createNode ∨ ∃ k0, afind k0 cur.children = some start) →
          childBoundP cfg.MaxChildren cfg.ParamString
            (Node.mk (aset K (insertWalk cfg cid n rest (d + 1) start cache).1
              cur.children) cur.clusterIDs) →
          SubNode sub (Node.mk (aset K (insertWalk cfg cid n rest (d + 1) start cache).1
            cur.children) cur.clusterIDs) →
          childBoundP cfg.MaxChildren cfg.ParamString sub := by
        intro K start h0 hroot hsx
        rcases subNode_inv hsx with h1 | ⟨k, c, hm, hc⟩
        · subst h1
          exact hroot
        · rcases mem_aset hm with h2 | h2
          · have hcc : c = (insertWalk cfg cid n rest (d + 1) start cache).1 :=
              congrArg Prod.snd h2
            rw [hcc] at hc
            exact ih (d + 1) start cache (hstart start h0) sub hc
          · exact hcur sub (SubNode.child h2 hc)
      cases hf : afind tok cur.children with
      | some child =>
        rw [hf] at hs
        refine hstep tok child (Or.inr ⟨tok, hf⟩) ⟨?_, ?_⟩ hs
        · rw [show (Node.mk (aset tok (insertWalk cfg cid n rest (d + 1) child cache).1
            cur.children) cur.clusterIDs).children = aset tok
              (insertWalk cfg cid n rest (d + 1) child cache).1 cur.children from rfl,
            aset_length_of_found _ hf]
          exact (hcur cur (SubNode.refl cur)).1
        · intro hnone
          rw [show (Node.mk (aset tok (insertWalk cfg cid n rest (d + 1) child cache).1
            cur.children) cur.clusterIDs).children = aset tok
              (insertWalk cfg cid n rest (d + 1) child cache).1 cur.children from rfl] at hnone ⊢
          rw [aset_length_of_found _ hf]
          by_cases hpt : cfg.ParamString = tok
          · rw [hpt, aset_afind_self] at hnone
            cases hnone
          · rw [aset_afind_ne _ hpt] at hnone
            exact (hcur cur (SubNode.refl cur)).2 hnone
      | none =>
        rw [hf] at hs
        dsimp only at hs
        by_cases hnum : hasNumbers tok
        · rw [if_pos hnum] at hs
          cases hp : afind cfg.ParamString cur.children with
          | some w =>
            rw [hp] at hs
            refine hstep cfg.ParamString w (Or.inr ⟨cfg.ParamString, hp⟩) ⟨?_, ?_⟩ hs
            · rw [show (Node.mk (aset cfg.ParamString (insertWalk cfg cid n rest (d + 1)
                w cache).1 cur.children) cur.clusterIDs).children = aset cfg.ParamString
                  (insertWalk cfg cid n rest (d + 1) w cache).1 cur.children from rfl,
                aset_length_of_found _ hp]
              exact (hcur cur (SubNode.refl cur)).1
            · intro hnone
              rw [show (Node.mk (aset cfg.ParamString (insertWalk cfg cid n rest (d + 1)
                w cache).1 cur.children) cur.clusterIDs).children = aset cfg.ParamString
                  (insertWalk cfg cid n rest (d + 1) w cache).1 cur.children from rfl,
                aset_afind_self] at hnone
              cases hnone
          | none =>
            rw [hp] at hs
            have hlt := (hcur cur (SubNode.refl cur)).2 hp
            refine hstep cfg.ParamString createNode (Or.inl rfl) ⟨?_, ?_⟩ hs
            · rw [show (Node.mk (aset cfg.ParamString (insertWalk cfg cid n rest (d + 1)
                createNode cache).1 cur.children) cur.clusterIDs).children =
                  aset cfg.ParamString (insertWalk cfg cid n rest (d + 1) createNode
                    cache).1 cur.children from rfl,
                aset_length_of_fresh _ hp]
              omega
            · intro hnone
              rw [show (Node.mk (aset cfg.ParamString (insertWalk cfg cid n rest (d + 1)
                createNode cache).1 cur.children) cur.clusterIDs).children =
                  aset cfg.ParamString (insertWalk cfg cid n rest (d + 1) createNode
                    cache).1 cur.children from rfl, aset_afind_self] at hnone
              cases hnone
        · rw [if_neg hnum] at hs
          cases hp : afind cfg.ParamString cur.children with
          | some w =>
            rw [hp] at hs
            dsimp only at hs
            by_cases h1 : cur.children.length < cfg.MaxChildren
            · rw [if_pos h1] at hs
              have hpt : cfg.ParamString ≠ tok := by
                intro he
                rw [he, hf] at hp
                cases hp
              refine hstep tok createNode (Or.inl rfl) ⟨?_, ?_⟩ hs
              · rw [show (Node.mk (aset tok (insertWalk cfg cid n rest (d + 1)
                  createNode cache).1 cur.children) cur.clusterIDs).children =
                    aset tok (insertWalk cfg cid n rest (d + 1) createNode cache).1
                      cur.children from rfl, aset_length_of_fresh _ hf]
                omega
              · intro hnone
                rw [show (Node.mk (aset tok (insertWalk cfg cid n rest (d + 1)
                  createNode cache).1 cur.children) cur.clusterIDs).children =
                    aset tok (insertWalk cfg cid n rest (d + 1) createNode cache).1
                      cur.children from rfl, aset_afind_ne _ hpt, hp] at hnone
                cases hnone
            · rw [if_neg h1] at hs
              refine hstep cfg.ParamString w (Or.inr ⟨cfg.ParamString, hp⟩) ⟨?_, ?_⟩ hs
              · rw [show (Node.mk (aset cfg.ParamString (insertWalk cfg cid n rest (d + 1)
                  w cache).1 cur.children) cur.clusterIDs).children = aset cfg.ParamString
                    (insertWalk cfg cid n rest (d + 1) w cache).1 cur.children from rfl,
                  aset_length_of_found _ hp]
                exact (hcur cur (SubNode.refl cur)).1
              · intro hnone
                rw [show (Node.mk (aset cfg.ParamString (insertWalk cfg cid n rest (d + 1)
                  w cache).1 cur.children) cur.clusterIDs).children = aset cfg.ParamString
                    (insertWalk cfg cid n rest (d + 1) w cache).1 cur.children from rfl,
                  aset_afind_self] at hnone
                cases hnone
          | none =>
            rw [hp] at hs
            dsimp only at hs
            have hlt := (hcur cur (SubNode.refl cur)).2 hp
            by_cases h1 : cur.children.length + 1 < cfg.MaxChildren
            · rw [if_pos h1] at hs
              refine hstep tok createNode (Or.inl rfl) ⟨?_, ?_⟩ hs
              · rw [show (Node.mk (aset tok (insertWalk cfg cid n rest (d + 1)
                  createNode cache).1 cur.children) cur.clusterIDs).children =
                    aset tok (insertWalk cfg cid n rest (d + 1) createNode cache).1
                      cur.children from rfl, aset_length_of_fresh _ hf]
                omega
              · intro _
                rw [show (Node.mk (aset tok (insertWalk cfg cid n rest (d + 1)
                  createNode cache).1 cur.children) cur.clusterIDs).children =
                    aset tok (insertWalk cfg cid n rest (d + 1) createNode cache).1
                      cur.children from rfl, aset_length_of_fresh _ hf]
                omega
            · rw [if_neg h1] at hs
              by_cases h2 : cur.children.length + 1 = cfg.MaxChildren
              · rw [if_pos h2] at hs
                refine hstep cfg.ParamString createNode (Or.inl rfl) ⟨?_, ?_⟩ hs
                · rw [show (Node.mk (aset cfg.ParamString (insertWalk cfg cid n rest
                    (d + 1) createNode cache).1 cur.children) cur.clusterIDs).children =
                      aset cfg.ParamString (insertWalk cfg cid n rest (d + 1) createNode
                        cache).1 cur.children from rfl, aset_length_of_fresh _ hp]
                  omega
                · intro hnone
                  rw [show (Node.mk (aset cfg.ParamString (insertWalk cfg cid n rest
                    (d + 1) createNode cache).1 cur.children) cur.clusterIDs).children =
                      aset cfg.ParamString (insertWalk cfg cid n rest (d + 1) createNode
                        cache).1 cur.children from rfl, aset_afind_self] at hnone
                  cases hnone
              · rw [if_neg h2] at hs
                exact hcur sub hs

theorem treeSearch_sim (cfg : Config) (cache : Cache) (root : List (Nat × Node))
    (tokens : List Str) (simTh : ℚ) (inc : Bool)
    (hnd : (cache.map (fun p => p.1)).Nodup) :
    CacheSim (treeSearch cfg cache root tokens simTh inc).2 cache := by
  cases hr : afind tokens.length root with
  | none => simp only [treeSearch, hr]; exact CacheSim.refl cache
  | some cur =>
    by_cases h0 : tokens.length = 0
    · simp only [treeSearch, hr, if_pos h0]
      cases hids : cur.clusterIDs with
      | nil => exact CacheSim.refl cache
      | cons cid _ => exact lruGet_sim cache cid hnd
    · simp only [treeSearch, hr, if_neg h0]
      cases hs : searchWalk cfg.maxNodeDepth tokens.length cfg.ParamString tokens 1 cur with
      | none => exact CacheSim.refl cache
      | some leaf =>
        simp only [fastMatch]
        exact fastMatchLoop_sim cfg.ParamString inc tokens leaf.clusterIDs cache
          (-1) (-1) none hnd

/-- A successful `fastMatch` returns a cluster that resolves at some
candidate id (look-up taken in the cache as it was before the call). -/
theorem fastMatch_some {param : Str} {inc : Bool} {cache : Cache}
    {ids : List Nat} {tokens : List Str} {simTh : ℚ} {C : LogCluster}
    (h : (fastMatch param inc cache ids tokens simTh).1 = some C) :
    ∃ cid ∈ ids, afind cid cache = some C := by
  have hfm : (fastMatch param inc cache ids tokens simTh).1
      = if simTh ≤ (fastMatchLoop param inc tokens ids cache (-1) (-1) none).1
        then (fastMatchLoop param inc tokens ids cache (-1) (-1) none).2.2.1
        else none := rfl
  rw [hfm] at h
  by_cases hth : simTh ≤ (fastMatchLoop param inc tokens ids cache (-1) (-1) none).1
  · rw [if_pos hth] at h
    rcases fastMatchLoop_spec param inc tokens ids cache (-1) (-1) none with
      ⟨_, _, e3, _⟩ | ⟨l1, cid, l2, C', heq, hfind, _, _, r3, _, _, _⟩
    · rw [e3] at h
      cases h
    · rw [r3] at h
      have : C' = C := Option.some.inj h
      subst this
      exact ⟨cid, by rw [heq]; exact List.mem_append_right _ (List.mem_cons_self _ _), hfind⟩
  · rw [if_neg hth] at h
    cases h

/-- A successful `treeSearch` returns a cluster that resolves in the cache
under its own id, and whose id is stored in the subtree of the first-layer
node keyed by the query's token count. -/
theorem treeSearch_some {cfg : Config} {cache : Cache} {root : List (Nat × Node)}
    {tokens : List Str} {simTh : ℚ} {inc : Bool} {mc : LogCluster} {cache1 : Cache}
    (hkey : ∀ p ∈ cache, p.2.id = p.1)
    (h : treeSearch cfg cache root tokens simTh inc = (some mc, cache1)) :
    afind mc.id cache = some mc ∧
      ∃ fl, afind tokens.length root = some fl ∧ treeHasId mc.id fl := by
  cases hr : afind tokens.length root with
  | none =>
    rw [treeSearch] at h
    simp only [hr] at h
    cases h
  | some cur =>
    rw [treeSearch] at h
    simp only [hr] at h
    by_cases h0 : tokens.length = 0
    · rw [if_pos h0] at h
      cases hids : cur.clusterIDs with
      | nil =>
        rw [hids] at h
        cases h
      | cons cid restIds =>
        rw [hids] at h
        dsimp only at h
        cases hfc : afind cid cache with
        | none =>
          rw [show lruGet cache cid = (none, cache) from by simp [lruGet, hfc]] at h
          cases h
        | some v =>
          rw [show lruGet cache cid = (some v, (cid, v) :: aremove cid cache) from by
            simp [lruGet, hfc]] at h
          have hv : v = mc := Option.some.inj (congrArg Prod.fst h)
          subst hv
          have hid : v.id = cid := hkey (cid, v) (afind_mem hfc)
          rw [hid]
          exact ⟨hfc, cur, rfl, treeHasId_here (hids ▸ List.mem_cons_self _ _)⟩
    · rw [if_neg h0] at h
      cases hs : searchWalk cfg.maxNodeDepth tokens.length cfg.ParamString tokens 1 cur with
      | none =>
        rw [hs] at h
        cases h
      | some leaf =>
        rw [hs] at h
        have hfm : (fastMatch cfg.ParamString inc cache leaf.clusterIDs tokens simTh).1
            = some mc := congrArg Prod.fst h
        obtain ⟨cid, hmem, hfind⟩ := fastMatch_some hfm
        have hid : mc.id = cid := hkey (cid, mc) (afind_mem hfind)
        rw [hid]
        exact ⟨hfind, cur, rfl, ⟨leaf, searchWalk_sub _ _ _ tokens 1 cur leaf hs, hmem⟩⟩

/-- The merged template has the template's length when the line has at
least as many tokens (positions are merged pointwise). -/
theorem createTemplate_length (param : Str) (s1 s2 : List Str) :
    (createTemplate param s1 s2).length = min s1.length s2.length := by
  simp [createTemplate]

/-- Neither branch of `Train` changes the configuration. -/
theorem Train_config (s : DrainState) (content : Str) (ts : Int) :
    (Train s content ts).2.config = s.config := by
  rcases hsr : treeSearch s.config s.idToCluster s.rootNode
    (getContentAsTokens s.config content) s.config.SimTh false with ⟨o, cache1⟩
  cases o with
  | none => rw [Train_creates s content ts cache1 hsr]
  | some mc => rw [Train_matches s content ts mc cache1 hsr]

/-- `Match` does not change the configuration. -/
theorem GoMatch_config (s : DrainState) (content : Str) :
    (GoMatch s content).2.config = s.config := rfl

/-- The cluster counter never decreases. -/
theorem Train_counter_le (s : DrainState) (content : Str) (ts : Int) :
    s.clustersCounter ≤ (Train s content ts).2.clustersCounter := by
  rcases hsr : treeSearch s.config s.idToCluster s.rootNode
    (getContentAsTokens s.config content) s.config.SimTh false with ⟨o, cache1⟩
  cases o with
  | none => rw [Train_creates s content ts cache1 hsr]; exact Nat.le_succ _
  | some mc => rw [Train_matches s content ts mc cache1 hsr]

/-- The structural invariant of a Drain engine state: cache keys are
unique, each cached cluster is stored under its own id, all ids are
bounded by the counter (in the cache and in the tree), every id reachable
in the subtree keyed by token count `n` resolves (if at all) to a cluster
whose template has exactly `n` tokens, and every tree node obeys the
branching bound. -/
structure Inv (s : DrainState) : Prop where
  nodup : (s.idToCluster.map (fun p => p.1)).Nodup
  key_id : ∀ p ∈ s.idToCluster, p.2.id = p.1
  key_le : ∀ p ∈ s.idToCluster, p.1 ≤ s.clustersCounter
  tree_le : ∀ n fl, afind n s.rootNode = some fl → ∀ id, treeHasId id fl →
    id ≤ s.clustersCounter
  len_inv : ∀ n fl, afind n s.rootNode = some fl → ∀ id, treeHasId id fl →
    ∀ c, afind id s.idToCluster = some c → c.Tokens.length = n
  bound : 1 ≤ s.config.MaxChildren → ∀ n fl, afind n s.rootNode = some fl →
    ∀ sub, SubNode sub fl → childBoundP s.config.MaxChildren s.config.ParamString sub

/-- The fresh engine satisfies the invariant. -/
theorem Inv_init (cfg : Config) : Inv (newDrain cfg) := by
  constructor
  · simp [newDrain]
  · intro p hp; cases hp
  · intro p hp; cases hp
  · intro n fl hfl; cases hfl
  · intro n fl hfl; cases hfl
  · intro _ n fl hfl; cases hfl

/-- A `Match` call preserves the invariant (it only reorders the cache). -/
theorem Inv_match (s : DrainState) (content : Str) (h : Inv s) :
    Inv (GoMatch s content).2 := by
  have hsim := treeSearch_sim s.config s.idToCluster s.rootNode
    (getContentAsTokens s.config content) 1 true h.nodup
  refine ⟨hsim.2.2 h.nodup, ?_, ?_, h.tree_le, ?_, h.bound⟩
  · intro p hp
    exact h.key_id p ((hsim.2.1 p).mp hp)
  · intro p hp
    exact h.key_le p ((hsim.2.1 p).mp hp)
  · intro n fl hfl id hid c hc
    have hc2 : afind id (treeSearch s.config s.idToCluster s.rootNode
        (getContentAsTokens s.config content) 1 true).2 = some c := hc
    rw [hsim.1 id] at hc2
    exact h.len_inv n fl hfl id hid c hc2

/-- Unfolding of `addSeqToPrefixTree` for a nonempty template. -/
theorem addSeq_eq (cfg : Config) (cache : Cache) (root : List (Nat × Node))
    (cluster : LogCluster) (hne : cluster.Tokens.length ≠ 0) :
    addSeqToPrefixTree cfg cache root cluster =
      (aset cluster.Tokens.length
        (insertWalk cfg cluster.id cluster.Tokens.length cluster.Tokens 1
          ((afind cluster.Tokens.length root).getD createNode) cache).1 root,
       (insertWalk cfg cluster.id cluster.Tokens.length cluster.Tokens 1
          ((afind cluster.Tokens.length root).getD createNode) cache).2) := by
  simp only [addSeqToPrefixTree]
  cases hf : afind cluster.Tokens.length root with
  | none => simp [hne]
  | some fl => simp [hne]

/-- A `Train` call preserves the invariant. -/
theorem Inv_train (s : DrainState) (content : Str) (ts : Int) (h : Inv s) :
    Inv (Train s content ts).2 := by
  rcases hsr : treeSearch s.config s.idToCluster s.rootNode
    (getContentAsTokens s.config content) s.config.SimTh false with ⟨o, cache1⟩
  have hsim1 : CacheSim cache1 s.idToCluster := by
    have := treeSearch_sim s.config s.idToCluster s.rootNode
      (getContentAsTokens s.config content) s.config.SimTh false h.nodup
    rw [hsr] at this
    exact this
  have hnd1 := hsim1.2.2 h.nodup
  cases o with
  | some mc =>
    rw [Train_matches s content ts mc cache1 hsr]
    dsimp only
    obtain ⟨hres, fl, hfl, hhas⟩ := treeSearch_some h.key_id hsr
    have hlen_mc : mc.Tokens.length = (getContentAsTokens s.config content).length :=
      h.len_inv _ fl hfl mc.id hhas mc hres
    have hmc2len : (mergedOf s content ts mc).Tokens.length = mc.Tokens.length := by
      simp [mergedOf, LogCluster.append, createTemplate_length, hlen_mc]
    have hres1 : afind mc.id cache1 = some mc := by
      rw [hsim1.1]
      exact hres
    have hnd2 : ((awrite mc.id (mergedOf s content ts mc) cache1).map
        (fun p => p.1)).Nodup := by
      rw [awrite_map_fst]
      exact hnd1
    have hsim3 := lruGet_sim (awrite mc.id (mergedOf s content ts mc) cache1) mc.id hnd2
    refine ⟨hsim3.2.2 hnd2, ?_, ?_, h.tree_le, ?_, h.bound⟩
    · intro p hp
      rcases mem_awrite ((hsim3.2.1 p).mp hp) with h1 | h1
      · rw [h1]
        rfl
      · exact h.key_id p ((hsim1.2.1 p).mp h1)
    · intro p hp
      rcases mem_awrite ((hsim3.2.1 p).mp hp) with h1 | h1
      · rw [h1]
        exact h.key_le (mc.id, mc) (afind_mem hres)
      · exact h.key_le p ((hsim1.2.1 p).mp h1)
    · intro n fl' hfl' id hid c hc
      rw [hsim3.1 id] at hc
      by_cases hidm : id = mc.id
      · subst hidm
        rw [awrite_afind_hit _ hres1] at hc
        have hc2 : c = mergedOf s content ts mc := (Option.some.inj hc).symm
        have hn : mc.Tokens.length = n := h.len_inv n fl' hfl' mc.id hid mc hres
        rw [hc2, hmc2len, hn]
      · rw [awrite_afind_ne _ hidm] at hc
        rw [hsim1.1 id] at hc
        exact h.len_inv n fl' hfl' id hid c hc
  | none =>
    rw [Train_creates s content ts cache1 hsr]
    have hne0 : (newClusterOf s content ts).Tokens.length ≠ 0 := by
      have := getContentAsTokens_ne_nil s.config content
      simpa [newClusterOf, List.length_eq_zero] using this
    have hfresh1 : afind (s.clustersCounter + 1) cache1 = none := by
      cases hfc : afind (s.clustersCounter + 1) cache1 with
      | none => rfl
      | some v =>
        have hle := h.key_le (s.clustersCounter + 1, v)
          ((hsim1.2.1 _).mp (afind_mem hfc))
        omega
    have hnd2 : ((lruAdd (cacheCap s.config.MaxClusters) cache1
        (s.clustersCounter + 1) (newClusterOf s content ts)).map
        (fun p => p.1)).Nodup := lruAdd_fresh_nodup hnd1 hfresh1
    rw [addSeq_eq s.config _ s.rootNode (newClusterOf s content ts) hne0]
    dsimp only
    have hWsim := insertWalk_sim s.config (newClusterOf s content ts).id
      (newClusterOf s content ts).Tokens.length (newClusterOf s content ts).Tokens 1
      ((afind (newClusterOf s content ts).Tokens.length s.rootNode).getD createNode)
      (lruAdd (cacheCap s.config.MaxClusters) cache1 (s.clustersCounter + 1)
        (newClusterOf s content ts)) hnd2
    have hstart : ∀ id, treeHasId id
        ((afind (newClusterOf s content ts).Tokens.length s.rootNode).getD createNode) →
        id ≤ s.clustersCounter := by
      intro id hid
      cases hfl0 : afind (newClusterOf s content ts).Tokens.length s.rootNode with
      | none =>
        rw [hfl0] at hid
        exact absurd hid treeHasId_createNode
      | some fl0 =>
        rw [hfl0] at hid
        exact h.tree_le _ fl0 hfl0 id hid
    have hcid : (newClusterOf s content ts).id = s.clustersCounter + 1 := rfl
    refine ⟨hWsim.2.2 hnd2, ?_, ?_, ?_, ?_, ?_⟩
    · intro p hp
      rcases lruAdd_fresh_mem hfresh1 ((hWsim.2.1 p).mp hp) with h1 | h1
      · rw [h1]
        rfl
      · exact h.key_id p ((hsim1.2.1 p).mp h1)
    · intro p hp
      rcases lruAdd_fresh_mem hfresh1 ((hWsim.2.1 p).mp hp) with h1 | h1
      · rw [h1]
      · have := h.key_le p ((hsim1.2.1 p).mp h1)
        show p.1 ≤ s.clustersCounter + 1
        omega
    · intro n fl' hfl' id hid
      show id ≤ s.clustersCounter + 1
      by_cases hn : n = (newClusterOf s content ts).Tokens.length
      · subst hn
        rw [aset_afind_self] at hfl'
        have hfl'' : fl' = (insertWalk s.config (newClusterOf s content ts).id
            (newClusterOf s content ts).Tokens.length (newClusterOf s content ts).Tokens 1
            ((afind (newClusterOf s content ts).Tokens.length s.rootNode).getD createNode)
            (lruAdd (cacheCap s.config.MaxClusters) cache1 (s.clustersCounter + 1)
              (newClusterOf s content ts))).1 := (Option.some.inj hfl').symm
        rw [hfl''] at hid
        rcases insertWalk_hasId s.config _ _ _ 1 _ _ id hid with h1 | h1
        · have := hstart id h1
          omega
        · rw [h1, hcid]
      · rw [aset_afind_ne _ hn] at hfl'
        have := h.tree_le n fl' hfl' id hid
        omega
    · intro n fl' hfl' id hid c hc
      rw [hWsim.1 id] at hc
      rcases lruAdd_fresh_afind hfresh1 hc with ⟨h1, h2⟩ | h1
      · subst h1
        rw [h2]
        by_cases hn : n = (newClusterOf s content ts).Tokens.length
        · rw [hn]
        · rw [aset_afind_ne _ hn] at hfl'
          have := h.tree_le n fl' hfl' _ hid
          omega
      · have hcold : afind id s.idToCluster = some c := by
          rw [← hsim1.1 id]
          exact h1
        have hidle : id ≤ s.clustersCounter :=
          h.key_le (id, c) (afind_mem hcold)
        by_cases hn : n = (newClusterOf s content ts).Tokens.length
        · subst hn
          rw [aset_afind_self] at hfl'
          have hfl'' : fl' = (insertWalk s.config (newClusterOf s content ts).id
              (newClusterOf s content ts).Tokens.length (newClusterOf s content ts).Tokens 1
              ((afind (newClusterOf s content ts).Tokens.length s.rootNode).getD createNode)
              (lruAdd (cacheCap s.config.MaxClusters) cache1 (s.clustersCounter + 1)
                (newClusterOf s content ts))).1 := (Option.some.inj hfl').symm
          rw [hfl''] at hid
          rcases insertWalk_hasId s.config _ _ _ 1 _ _ id hid with h2 | h2
          · cases hfl0 : afind (newClusterOf s content ts).Tokens.length s.rootNode with
            | none =>
              rw [hfl0] at h2
              exact absurd h2 treeHasId_createNode
            | some fl0 =>
              rw [hfl0] at h2
              exact h.len_inv _ fl0 hfl0 id h2 c hcold
          · rw [h2, hcid] at hidle
            omega
        · rw [aset_afind_ne _ hn] at hfl'
          exact h.len_inv n fl' hfl' id hid c hcold
    · intro hMax n fl' hfl' sub hsub
      have hMax2 : 1 ≤ s.config.MaxChildren := hMax
      by_cases hn : n = (newClusterOf s content ts).Tokens.length
      · subst hn
        rw [aset_afind_self] at hfl'
        have hfl'' : fl' = (insertWalk s.config (newClusterOf s content ts).id
            (newClusterOf s content ts).Tokens.length (newClusterOf s content ts).Tokens 1
            ((afind (newClusterOf s content ts).Tokens.length s.rootNode).getD createNode)
            (lruAdd (cacheCap s.config.MaxClusters) cache1 (s.clustersCounter + 1)
              (newClusterOf s content ts))).1 := (Option.some.inj hfl').symm
        rw [hfl''] at hsub
        refine insertWalk_bound s.config _ _ hMax _ 1 _ _ ?_ sub hsub
        intro sub' hsub'
        cases hfl0 : afind (newClusterOf s content ts).Tokens.length s.rootNode with
        | none =>
          rw [hfl0] at hsub'
          rw [subNode_createNode hsub']
          exact ⟨by simp [createNode, Node.children], fun _ => by
            simp [createNode, Node.children]; omega⟩
        | some fl0 =>
          rw [hfl0] at hsub'
          exact h.bound hMax _ fl0 hfl0 sub' hsub'
      · rw [aset_afind_ne _ hn] at hfl'
        exact h.bound hMax n fl' hfl' sub hsub

/-- The cluster returned by `Train` is stored in the resulting cache under
its own id, its template length is the line's token count, and its id is
within the counter. -/
theorem Train_result_lookup (s : DrainState) (content : Str) (ts : Int)
    (h : Inv s) :
    afind (Train s content ts).1.id (Train s content ts).2.idToCluster
        = some (Train s content ts).1 ∧
      (Train s content ts).1.Tokens.length
        = (getContentAsTokens s.config content).length ∧
      (Train s content ts).1.id ≤ (Train s content ts).2.clustersCounter := by
  rcases hsr : treeSearch s.config s.idToCluster s.rootNode
    (getContentAsTokens s.config content) s.config.SimTh false with ⟨o, cache1⟩
  have hsim1 : CacheSim cache1 s.idToCluster := by
    have := treeSearch_sim s.config s.idToCluster s.rootNode
      (getContentAsTokens s.config content) s.config.SimTh false h.nodup
    rw [hsr] at this
    exact this
  have hnd1 := hsim1.2.2 h.nodup
  cases o with
  | some mc =>
    rw [Train_matches s content ts mc cache1 hsr]
    dsimp only
    obtain ⟨hres, fl, hfl, hhas⟩ := treeSearch_some h.key_id hsr
    have hres1 : afind mc.id cache1 = some mc := by
      rw [hsim1.1]
      exact hres
    have hlen_mc : mc.Tokens.length = (getContentAsTokens s.config content).length :=
      h.len_inv _ fl hfl mc.id hhas mc hres
    refine ⟨?_, ?_, ?_⟩
    · show afind mc.id (lruGet (awrite mc.id (mergedOf s content ts mc) cache1) mc.id).2
        = some (mergedOf s content ts mc)
      rw [lruGet_afind]
      exact awrite_afind_hit _ hres1
    · show (mergedOf s content ts mc).Tokens.length = _
      simp [mergedOf, LogCluster.append, createTemplate_length, hlen_mc]
    · show mc.id ≤ s.clustersCounter
      exact h.key_le (mc.id, mc) (afind_mem hres)
  | none =>
    rw [Train_creates s content ts cache1 hsr]
    have hne0 : (newClusterOf s content ts).Tokens.length ≠ 0 := by
      have := getContentAsTokens_ne_nil s.config content
      simpa [newClusterOf, List.length_eq_zero] using this
    have hfresh1 : afind (s.clustersCounter + 1) cache1 = none := by
      cases hfc : afind (s.clustersCounter + 1) cache1 with
      | none => rfl
      | some v =>
        have hle := h.key_le (s.clustersCounter + 1, v)
          ((hsim1.2.1 _).mp (afind_mem hfc))
        omega
    have hnd2 : ((lruAdd (cacheCap s.config.MaxClusters) cache1
        (s.clustersCounter + 1) (newClusterOf s content ts)).map
        (fun p => p.1)).Nodup := lruAdd_fresh_nodup hnd1 hfresh1
    rw [addSeq_eq s.config _ s.rootNode (newClusterOf s content ts) hne0]
    dsimp only
    have hWsim := insertWalk_sim s.config (newClusterOf s content ts).id
      (newClusterOf s content ts).Tokens.length (newClusterOf s content ts).Tokens 1
      ((afind (newClusterOf s content ts).Tokens.length s.rootNode).getD createNode)
      (lruAdd (cacheCap s.config.MaxClusters) cache1 (s.clustersCounter + 1)
        (newClusterOf s content ts)) hnd2
    refine ⟨?_, rfl, le_refl _⟩
    show afind (s.clustersCounter + 1) _ = _
    rw [hWsim.1]
    exact lruAdd_fresh_afind_self _ cache1 _ _ (one_le_cacheCap _) hfresh1

/-- A `Train` call never changes the template length stored at an existing
id. -/
theorem Train_afind_stable (s : DrainState) (content : Str) (ts : Int)
    (h : Inv s) (id L : Nat) (hle : id ≤ s.clustersCounter)
    (hP : ∀ c, afind id s.idToCluster = some c → c.Tokens.length = L) :
    ∀ c', afind id (Train s content ts).2.idToCluster = some c' →
      c'.Tokens.length = L := by
  rcases hsr : treeSearch s.config s.idToCluster s.rootNode
    (getContentAsTokens s.config content) s.config.SimTh false with ⟨o, cache1⟩
  have hsim1 : CacheSim cache1 s.idToCluster := by
    have := treeSearch_sim s.config s.idToCluster s.rootNode
      (getContentAsTokens s.config content) s.config.SimTh false h.nodup
    rw [hsr] at this
    exact this
  have hnd1 := hsim1.2.2 h.nodup
  cases o with
  | some mc =>
    rw [Train_matches s content ts mc cache1 hsr]
    dsimp only
    intro c' hc'
    obtain ⟨hres, fl, hfl, hhas⟩ := treeSearch_some h.key_id hsr
    have hres1 : afind mc.id cache1 = some mc := by
      rw [hsim1.1]
      exact hres
    have hlen_mc : mc.Tokens.length = (getContentAsTokens s.config content).length :=
      h.len_inv _ fl hfl mc.id hhas mc hres
    rw [lruGet_afind] at hc'
    by_cases hidm : id = mc.id
    · subst hidm
      rw [awrite_afind_hit _ hres1] at hc'
      have hc2 : c' = mergedOf s content ts mc := (Option.some.inj hc').symm
      have : (mergedOf s content ts mc).Tokens.length = mc.Tokens.length := by
        simp [mergedOf, LogCluster.append, createTemplate_length, hlen_mc]
      rw [hc2, this]
      exact hP mc hres
    · rw [awrite_afind_ne _ hidm, hsim1.1] at hc'
      exact hP c' hc'
  | none =>
    rw [Train_creates s content ts cache1 hsr]
    dsimp only
    intro c' hc'
    have hne0 : (newClusterOf s content ts).Tokens.length ≠ 0 := by
      have := getContentAsTokens_ne_nil s.config content
      simpa [newClusterOf, List.length_eq_zero] using this
    have hfresh1 : afind (s.clustersCounter + 1) cache1 = none := by
      cases hfc : afind (s.clustersCounter + 1) cache1 with
      | none => rfl
      | some v =>
        have hle2 := h.key_le (s.clustersCounter + 1, v)
          ((hsim1.2.1 _).mp (afind_mem hfc))
        omega
    have hnd2 : ((lruAdd (cacheCap s.config.MaxClusters) cache1
        (s.clustersCounter + 1) (newClusterOf s content ts)).map
        (fun p => p.1)).Nodup := lruAdd_fresh_nodup hnd1 hfresh1
    rw [addSeq_eq s.config _ s.rootNode (newClusterOf s content ts) hne0] at hc'
    dsimp only at hc'
    have hWsim := insertWalk_sim s.config (newClusterOf s content ts).id
      (newClusterOf s content ts).Tokens.length (newClusterOf s content ts).Tokens 1
      ((afind (newClusterOf s content ts).Tokens.length s.rootNode).getD createNode)
      (lruAdd (cacheCap s.config.MaxClusters) cache1 (s.clustersCounter + 1)
        (newClusterOf s content ts)) hnd2
    rw [hWsim.1] at hc'
    rcases lruAdd_fresh_afind hfresh1 hc' with ⟨h1, _⟩ | h1
    · omega
    · rw [hsim1.1] at h1
      exact hP c' h1

/-- Invariant and counter monotonicity along any call sequence. -/
theorem ReachFrom_Inv {s s' : DrainState} (hr : ReachFrom s s') (h : Inv s) :
    Inv s' := by
  induction hr with
  | refl => exact h
  | train content ts _ ih => exact Inv_train _ content ts ih
  | lookup content _ ih => exact Inv_match _ content ih

theorem ReachFrom_counter_le {s s' : DrainState} (hr : ReachFrom s s') :
    s.clustersCounter ≤ s'.clustersCounter := by
  induction hr with
  | refl => exact le_refl _
  | train content ts _ ih => exact le_trans ih (Train_counter_le _ content ts)
  | lookup content _ ih => exact ih

theorem ReachFrom_config {s s' : DrainState} (hr : ReachFrom s s') :
    s'.config = s.config := by
  induction hr with
  | refl => rfl
  | train content ts _ ih => rw [Train_config]; exact ih
  | lookup content _ ih => rw [GoMatch_config]; exact ih

/-- The stored template length at a given id never changes over any call
sequence. -/
theorem ReachFrom_len_stable {s s' : DrainState} (hr : ReachFrom s s')
    (h : Inv s) (id L : Nat) (hle : id ≤ s.clustersCounter)
    (hP : ∀ c, afind id s.idToCluster = some c → c.Tokens.length = L) :
    ∀ c', afind id s'.idToCluster = some c' → c'.Tokens.length = L := by
  induction hr with
  | refl => exact hP
  | train content ts hr' ih =>
    exact Train_afind_stable _ content ts (ReachFrom_Inv hr' h) id L
      (le_trans hle (ReachFrom_counter_le hr')) ih
  | @lookup sm content hr' ih =>
    intro c' hc'
    have hInv' := ReachFrom_Inv hr' h
    have hsim := treeSearch_sim sm.config sm.idToCluster sm.rootNode
      (getContentAsTokens sm.config content) 1 true hInv'.nodup
    have hc2 : afind id (treeSearch sm.config sm.idToCluster sm.rootNode
        (getContentAsTokens sm.config content) 1 true).2 = some c' := hc'
    rw [hsim.1 id] at hc2
    exact ih c' hc2

/-- Every reachable state satisfies the invariant. -/
theorem Reachable_Inv {cfg : Config} {s : DrainState} (h : Reachable cfg s) :
    Inv s := by
  induction h with
  | init _ => exact Inv_init cfg
  | train content ts _ ih => exact Inv_train _ content ts ih
  | lookup content _ ih => exact Inv_match _ content ih

/-- A reachable state's configuration is the one `New` derived. -/
theorem Reachable_config {cfg : Config} {s : DrainState} (h : Reachable cfg s) :
    s.config = { cfg with maxNodeDepth := cfg.LogClusterDepth - 2 } := by
  induction h with
  | init _ => rfl
  | train content ts _ ih => rw [Train_config]; exact ih
  | lookup content _ ih => rw [GoMatch_config]; exact ih

end DrainModel

open DrainModel

/-- Example configuration used by the concrete executions below:
`LogClusterDepth = 3` (so `maxNodeDepth = 1`), similarity threshold `0.5`,
`MaxClusters = 3`, wildcard marker `<*>`. -/
def cfgEx : Config :=
  { maxNodeDepth := 0
    LogClusterDepth := 3
    SimTh := Rat.divInt 5 10
    MaxChildren := 100
    ExtraDelimiters := []
    MaxClusters := 3
    ParamString := ['<', '*', '>'] }

/-- State after training `"a"`, `"b"`, `"c"` and then `"a"` again: three
clusters, and cluster 1 was touched by the successful training match of the
fourth call (its recency order is `[2, 3, 1]`, oldest first). -/
def exDrain4 : DrainState :=
  (Train (Train (Train (Train (newDrain cfgEx) ['a'] 0).2 ['b'] 0).2 ['c'] 0).2 ['a'] 0).2

/-- C10: tokenization always returns at least one token (splitting the
trimmed, delimiter-replaced string on spaces never yields an empty list),
for every input line including the empty and whitespace-only ones. Hence
`tokenCount = 0` is impossible for the token lists handed by `Train` and
`Match` to `treeSearch` and `addSeqToPrefixTree`, their zero-count
branches are unreachable, and the unguarded `curNode.clusterIDs[0]` index
on the zero-count path cannot fault. -/
theorem claim_C10 (cfg : Config) (content : Str) :
    1 ≤ (getContentAsTokens cfg content).length := by
  have h := goSplitSpace_ne_nil
    (cfg.ExtraDelimiters.foldl (fun acc d => goReplaceAll acc d) (trimSpace content))
  have : getContentAsTokens cfg content ≠ [] := h
  exact Nat.one_le_iff_ne_zero.mpr (by simpa [List.length_eq_zero] using this)

/-- C2 (code bug): `Volume.Add`'s interior branch binary-searches on the
count field `Values[i][1]` instead of the timestamp field `Values[i][0]`.
Starting from buckets `[(0,1), (3e10,1)]` (reached by `initVolume 0`
followed by `Add 3e10`), recording timestamp `1e10` — whose truncated
bucket falls strictly between the first and last buckets — appends
`(1e10, 1)` at the end instead of inserting it in the middle, so the
bucket sequence is no longer strictly increasing. -/
theorem claim_C2 :
    (((initVolume 0).Add 30000000000).Add 10000000000).Values
        = [(0, 1), (30000000000, 1), (10000000000, 1)] ∧
      strictIncB ((((initVolume 0).Add 30000000000).Add 10000000000).Values.map
        (fun p => p.1)) = false := by
  decide

/-- C9 (code bug): the "Prepend" branch of `Volume.Add` grows capacity but
not length (`slices.Grow` + `copy` + overwrite of index 0), so it drops the
last bucket. Training the same line twice, first at `ts = 1e10` and then at
`ts = 0`, leaves the cluster's volume with `Matches() = 1`, not 2: the
second `Add` lost the first bucket while prepending. -/
theorem claim_C9 :
    (Train (Train (newDrain cfgEx) ['a'] 10000000000).2 ['a'] 0).1.Volume.Matches = 1 ∧
      (Train (Train (newDrain cfgEx) ['a'] 10000000000).2 ['a'] 0).1.Volume.Values
        = [(0, 1)] := by
  decide

/-- C1 (code bug): `fastMatch` resolves every candidate through
`LogClusterCache.Get`, which calls the LRU's recency-affecting `Get` — not
`Peek` — despite its own comment ("with bypassing eviction algorithm") and
the spec's "non-mutating peek". Consequently a pure `Match` call reorders
the cache: on `exDrain4` the recency order (oldest first) is `[2, 3, 1]`,
and after `Match "b"` — a call that only tests candidates — it is
`[1, 2, 3]`. -/
theorem claim_C1 :
    cacheKeys exDrain4.idToCluster = [2, 3, 1] ∧
      (GoMatch exDrain4 ['b']).1.isSome = true ∧
      cacheKeys (GoMatch exDrain4 ['b']).2.idToCluster = [1, 2, 3] := by
  decide

/-- C6 (code bug): with `max_clusters = 3`, training a fourth distinct
template on `exDrain4` must evict. By the claim's accounting (recency
updated by insertion and by the recency-affecting read on a successful
training match) the least recently touched cluster is 2 and cluster 1 is
the hottest (just match-touched). But the candidate-testing `Get`s of the
miss itself reorder the cache first, so the code evicts cluster 1 and
keeps cluster 2. -/
theorem claim_C6 :
    exDrain4.idToCluster.length = 3 ∧
      afind 1 exDrain4.idToCluster ≠ none ∧
      afind 1 (Train exDrain4 ['d'] 0).2.idToCluster = none ∧
      afind 2 (Train exDrain4 ['d'] 0).2.idToCluster ≠ none := by
  decide

/-- C4: template merging is monotonic generalization.
1. Position-wise rule: the merged template keeps a token exactly where the
   new line's token (`seq1`) and the existing template token (`seq2`)
   agree, and otherwise writes the wildcard marker.
2. Once a position is the wildcard, any further merge leaves it the
   wildcard.
3. Through `Train`: when a training call matches cluster `mc` (whose
   template has the same length as the line's tokens, which tree search
   guarantees), every wildcard position of `mc`'s template is still the
   wildcard in the returned (merged) cluster. -/
theorem claim_C4 (param : Str) :
    (∀ (s1 s2 : List Str) (i : Nat) (a b : Str), s1[i]? = some a → s2[i]? = some b →
        (createTemplate param s1 s2)[i]? = some (if a = b then b else param)) ∧
    (∀ (s1 s2 s3 : List Str) (i : Nat), i < s3.length →
        (createTemplate param s1 s2)[i]? = some param →
        (createTemplate param s3 (createTemplate param s1 s2))[i]? = some param) ∧
    (∀ (s : DrainState) (content : Str) (ts : Int) (mc : LogCluster) (cache1 : Cache)
        (i : Nat),
        s.config.ParamString = param →
        treeSearch s.config s.idToCluster s.rootNode (getContentAsTokens s.config content)
            s.config.SimTh false = (some mc, cache1) →
        mc.Tokens.length = (getContentAsTokens s.config content).length →
        mc.Tokens[i]? = some param →
        (Train s content ts).1.Tokens[i]? = some param) := by
  refine ⟨?_, ?_, ?_⟩
  · intro s1 s2 i a b h1 h2
    rw [createTemplate_getElem?, h1, h2]
  · intro s1 s2 s3 i hlen hw
    have hx := List.getElem?_eq_getElem hlen
    rw [createTemplate_getElem?, hx, hw]
    simp
  · intro s content ts mc cache1 i hparam hsearch hlen hw
    have hi : i < mc.Tokens.length := (List.getElem?_eq_some_iff.mp hw).1
    rw [hlen] at hi
    have hx := List.getElem?_eq_getElem hi
    simp only [Train, hsearch]
    simp only [LogCluster.append]
    rw [hparam, createTemplate_getElem?, hx, hw]
    simp

/-- C4 witness: the monotonicity part at a concrete input: merging
`["a"]` into `["b"]` wildcards position 0, and a further merge with
`["c"]` keeps it the wildcard. -/
theorem claim_C4_witness :
    (createTemplate ['<', '*', '>'] [['c']]
        (createTemplate ['<', '*', '>'] [['a']] [['b']]))[0]? = some ['<', '*', '>'] :=
  (claim_C4 ['<', '*', '>']).2.1 [['a']] [['b']] [['c']] 0 (by decide) (by decide)

/-- C3 counterexample: training the exact same line twice does not always
return the same cluster id. With similarity threshold 1.0 (which is "at
most 1.0") and the line consisting of the single token `<*>` — the
wildcard marker itself — the wildcard position scores 0 when wildcards are
excluded from training-time scoring, so the second call misses and creates
a second cluster: the ids are 1 and 2 and both sizes stay 1. -/
theorem claim_C3_counterexample :
    (Train (newDrain { cfgEx with SimTh := 1, MaxClusters := 0 })
        ['<', '*', '>'] 0).1.id = 1 ∧
      (Train (Train (newDrain { cfgEx with SimTh := 1, MaxClusters := 0 })
          ['<', '*', '>'] 0).2 ['<', '*', '>'] 0).1.id = 2 ∧
      (Train (Train (newDrain { cfgEx with SimTh := 1, MaxClusters := 0 })
          ['<', '*', '>'] 0).2 ['<', '*', '>'] 0).1.Size = 1 := by
  decide

/-- C3 amended: for every line none of whose tokens equals the configured
wildcard marker (the marker "must not collide with real tokens in the
corpus"), on a validly constructed fresh engine (`LogClusterDepth ≥ 3`,
`MaxChildren ≥ 1`) with similarity threshold at most 1.0, training the line
twice returns the cluster with the same identifier both times and the
occurrence count goes 1, then 2. -/
theorem claim_C3_amended (cfg : Config) (content : Str) (t1 t2 : Int)
    (hDepth : 3 ≤ cfg.LogClusterDepth) (hMax : 1 ≤ cfg.MaxChildren)
    (hSim : cfg.SimTh ≤ 1)
    (hParam : cfg.ParamString ∉ getContentAsTokens (newDrain cfg).config content) :
    (Train (Train (newDrain cfg) content t1).2 content t2).1.id
        = (Train (newDrain cfg) content t1).1.id ∧
      (Train (newDrain cfg) content t1).1.Size = 1 ∧
      (Train (Train (newDrain cfg) content t1).2 content t2).1.Size = 2 := by
  have h := double_train_aux { cfg with maxNodeDepth := cfg.LogClusterDepth - 2 }
    content t1 t2 hMax hSim hParam
  exact ⟨h.2.2.1.trans h.1.symm, h.2.1, h.2.2.2⟩

/-- Two clusters with identical templates (ids 1 and 2), used to exhibit
the tie-breaking behaviour of `fastMatch`. -/
def cA : LogCluster := ⟨1, 1, [['a']], [['a']], ⟨[(0, 1)]⟩⟩

/-- Second cluster with the same template as `cA`. -/
def cB : LogCluster := ⟨2, 1, [['a']], [['a']], ⟨[(0, 1)]⟩⟩

/-- A cache holding `cA` and `cB`. -/
def cacheEx : Cache := [(1, cA), (2, cB)]

/-- The selection criterion exactly as claim C7 states it: C resolves in
the cache, its score reaches the threshold, and every other resolvable
candidate scores strictly lower or ties with at most C's parameter
count. -/
def claimC7Selection (param : Str) (inc : Bool) (cache : Cache)
    (clusterIDs : List Nat) (tokens : List Str) (simTh : ℚ) (C : LogCluster) :
    Prop :=
  (∃ cid ∈ clusterIDs, afind cid cache = some C) ∧
    simTh ≤ (scoreOf param inc tokens C).1 ∧
    (∀ cid ∈ clusterIDs, ∀ D, afind cid cache = some D → D ≠ C →
      lexLe (scoreOf param inc tokens D) (scoreOf param inc tokens C))

/-- C7 counterexample: the claimed if-and-only-if characterization fails
when two resolvable candidates tie on both score and parameter count.
With candidates `[1, 2]` both holding template `["a"]`, input `["a"]` and
threshold 1, cluster `cB` satisfies the claim's selection criterion, yet
`fastMatch` returns `cA` — the earlier candidate — not `cB`. -/
theorem claim_C7_counterexample :
    ¬ (∀ C : LogCluster,
        (fastMatch ['<', '*', '>'] false cacheEx [1, 2] [['a']] 1).1 = some C ↔
          claimC7Selection ['<', '*', '>'] false cacheEx [1, 2] [['a']] 1 C) := by
  intro h
  have hsel : claimC7Selection ['<', '*', '>'] false cacheEx [1, 2] [['a']] 1 cB := by
    refine ⟨⟨2, by decide, by decide⟩, by decide, ?_⟩
    intro cid hcid D hD hne
    rcases List.mem_cons.mp hcid with h1 | h1
    · subst h1
      have hDA : D = cA := by
        have : afind 1 cacheEx = some cA := by decide
        rw [this] at hD
        exact (Option.some.inj hD).symm
      subst hDA
      exact Or.inr ⟨rfl, le_refl _⟩
    · rcases List.mem_cons.mp h1 with h2 | h2
      · subst h2
        have hDB : D = cB := by
          have : afind 2 cacheEx = some cB := by decide
          rw [this] at hD
          exact (Option.some.inj hD).symm
        exact absurd hDB hne
      · cases h2
  have hres := (h cB).mpr hsel
  have hfa : (fastMatch ['<', '*', '>'] false cacheEx [1, 2] [['a']] 1).1 = some cA := by
    decide
  rw [hfa] at hres
  have : cA = cB := Option.some.inj hres
  exact absurd this (by decide)

/-- C7 amended: `fastMatch` returns cluster `C` if and only if `C`
resolves at some position of the candidate list, its score reaches the
threshold, every *earlier* resolvable candidate is strictly below `C` in
the lexicographic (score, parameter count) order, and every *later*
resolvable candidate is at most `C` in that order — i.e. the claim's rule
plus first-in-candidate-order tie-breaking when both score and parameter
count tie. (The hypotheses restrict to inputs on which Go does not panic:
equal-length candidates and a nonempty input.) -/
theorem claim_C7_amended (param : Str) (inc : Bool) (cache : Cache)
    (ids : List Nat) (tokens : List Str) (simTh : ℚ) (C : LogCluster)
    (hLen : ∀ cid ∈ ids, ∀ D, afind cid cache = some D →
      D.Tokens.length = tokens.length)
    (hTok : tokens ≠ []) :
    (fastMatch param inc cache ids tokens simTh).1 = some C ↔
      (simTh ≤ (scoreOf param inc tokens C).1 ∧
        ∃ l1 cid l2, ids = l1 ++ cid :: l2 ∧ afind cid cache = some C ∧
          (∀ e ∈ l1, ∀ D, afind e cache = some D →
            lexLt (scoreOf param inc tokens D) (scoreOf param inc tokens C)) ∧
          (∀ e ∈ l2, ∀ D, afind e cache = some D →
            lexLe (scoreOf param inc tokens D) (scoreOf param inc tokens C))) := by
  constructor
  · intro hres
    have hfm : (fastMatch param inc cache ids tokens simTh).1
        = if simTh ≤ (fastMatchLoop param inc tokens ids cache (-1) (-1) none).1
          then (fastMatchLoop param inc tokens ids cache (-1) (-1) none).2.2.1
          else none := rfl
    rw [hfm] at hres
    by_cases hth : simTh ≤ (fastMatchLoop param inc tokens ids cache (-1) (-1) none).1
    · rw [if_pos hth] at hres
      rcases fastMatchLoop_spec param inc tokens ids cache (-1) (-1) none with
        ⟨e1, e2, e3, hall⟩ | ⟨l1, cid, l2, C', heq, hfind, r1, r2, r3, hgt, hl1, hl2⟩
      · rw [e3] at hres
        cases hres
      · rw [r3] at hres
        have hCC : C' = C := Option.some.inj hres
        subst hCC
        exact ⟨by rw [r1] at hth; exact hth, l1, cid, l2, heq, hfind, hl1, hl2⟩
    · rw [if_neg hth] at hres
      cases hres
  · rintro ⟨hth, l1, cid, l2, heq, hfind, hl1, hl2⟩
    subst heq
    have hinit : lexLt ((-1 : ℚ), (-1 : Int)) (scoreOf param inc tokens C) :=
      Or.inl (lt_of_lt_of_le (by norm_num) (score_fst_nonneg param inc tokens C))
    have hbelow := fastMatchLoop_below param inc tokens
      (scoreOf param inc tokens C) l1 cache (-1) (-1) none hl1 hinit
    have hfind1 : afind cid
        (fastMatchLoop param inc tokens l1 cache (-1) (-1) none).2.2.2 = some C := by
      rw [fastMatchLoop_afind]
      exact hfind
    have hcond : (getSeqDistance param C.Tokens tokens inc).1
          > (fastMatchLoop param inc tokens l1 cache (-1) (-1) none).1 ∨
        ((getSeqDistance param C.Tokens tokens inc).1
            = (fastMatchLoop param inc tokens l1 cache (-1) (-1) none).1 ∧
          ((getSeqDistance param C.Tokens tokens inc).2 : Int)
            > (fastMatchLoop param inc tokens l1 cache (-1) (-1) none).2.1) :=
      (update_cond_iff _ _ _ _).mpr hbelow
    have hl : lruGet (fastMatchLoop param inc tokens l1 cache (-1) (-1) none).2.2.2 cid
        = (some C, (cid, C) :: aremove cid
            (fastMatchLoop param inc tokens l1 cache (-1) (-1) none).2.2.2) := by
      simp [lruGet, hfind1]
    have hle2 : ∀ e ∈ l2, ∀ D, afind e ((cid, C) :: aremove cid
          (fastMatchLoop param inc tokens l1 cache (-1) (-1) none).2.2.2) = some D →
        lexLe (scoreOf param inc tokens D) ((getSeqDistance param C.Tokens tokens inc).1,
          ((getSeqDistance param C.Tokens tokens inc).2 : Int)) := by
      intro e he D hD
      rw [afind_get_cache cid C _ hfind1 e, fastMatchLoop_afind] at hD
      exact hl2 e he D hD
    have hnoup := fastMatchLoop_noupdate param inc tokens l2
      ((cid, C) :: aremove cid (fastMatchLoop param inc tokens l1 cache (-1) (-1) none).2.2.2)
      (getSeqDistance param C.Tokens tokens inc).1
      ((getSeqDistance param C.Tokens tokens inc).2 : Int) (some C) hle2
    have hfm : (fastMatch param inc cache (l1 ++ cid :: l2) tokens simTh).1
        = if simTh ≤ (fastMatchLoop param inc tokens (l1 ++ cid :: l2) cache (-1) (-1) none).1
          then (fastMatchLoop param inc tokens (l1 ++ cid :: l2) cache (-1) (-1) none).2.2.1
          else none := rfl
    have happ := fastMatchLoop_append param inc tokens l1 (cid :: l2) cache (-1) (-1) none
    have hstep : fastMatchLoop param inc tokens (cid :: l2)
          (fastMatchLoop param inc tokens l1 cache (-1) (-1) none).2.2.2
          (fastMatchLoop param inc tokens l1 cache (-1) (-1) none).1
          (fastMatchLoop param inc tokens l1 cache (-1) (-1) none).2.1
          (fastMatchLoop param inc tokens l1 cache (-1) (-1) none).2.2.1
        = fastMatchLoop param inc tokens l2
            ((cid, C) :: aremove cid
              (fastMatchLoop param inc tokens l1 cache (-1) (-1) none).2.2.2)
            (getSeqDistance param C.Tokens tokens inc).1
            ((getSeqDistance param C.Tokens tokens inc).2 : Int) (some C) := by
      simp only [fastMatchLoop, hl]
      rw [if_pos hcond]
    have hth2 : simTh ≤ (getSeqDistance param C.Tokens tokens inc).1 := hth
    rw [hfm, happ, hstep, hnoup.1, hnoup.2.2, if_pos hth2]

/-- C7 amended, witness: a single resolvable candidate with a perfect
score is returned. -/
theorem claim_C7_amended_witness :
    (fastMatch ['<', '*', '>'] false [(1, cA)] [1] [['a']] 1).1 = some cA :=
  (claim_C7_amended ['<', '*', '>'] false [(1, cA)] [1] [['a']] 1 cA
      (by decide) (by decide)).mpr
    ⟨by decide, [], 1, [], rfl, by decide,
      fun e he => absurd he (List.not_mem_nil e),
      fun e he => absurd he (List.not_mem_nil e)⟩

/-- C5: in every reachable engine state, every cluster resolvable from
the candidate list of the node that tree search reaches for a query with
token count `n` has a template of exactly `n` tokens. Hence both
sequences handed to `getSeqDistance` (scoring) and to `createTemplate`
(merging) always have equal length and the length-mismatch panic is
unreachable from `Train` and `Match`. Moreover (second conjunct), two
lines assigned by `Train` — at any two points of a call sequence — to the
same cluster id always have the same token count. -/
theorem claim_C5 (cfg : Config) (s : DrainState) (h : Reachable cfg s) :
    (∀ (tokens : List Str) (fl leaf : Node),
        afind tokens.length s.rootNode = some fl →
        searchWalk s.config.maxNodeDepth tokens.length s.config.ParamString
          tokens 1 fl = some leaf →
        ∀ cid ∈ leaf.clusterIDs, ∀ c, afind cid s.idToCluster = some c →
          c.Tokens.length = tokens.length) ∧
    (∀ (l1 l2 : Str) (t1 t2 : Int) (s2 : DrainState),
        ReachFrom (Train s l1 t1).2 s2 →
        ((Train s l1 t1).1).id = ((Train s2 l2 t2).1).id →
        (getContentAsTokens s.config l1).length
          = (getContentAsTokens s2.config l2).length) := by
  have hInv : Inv s := Reachable_Inv h
  constructor
  · intro tokens fl leaf hfl hsw cid hcid c hc
    exact hInv.len_inv tokens.length fl hfl cid
      ⟨leaf, searchWalk_sub _ _ _ tokens 1 fl leaf hsw, hcid⟩ c hc
  · intro l1 l2 t1 t2 s2 hreach hid
    obtain ⟨hlook, hlen1, hidle⟩ := Train_result_lookup s l1 t1 hInv
    have hInv1 : Inv (Train s l1 t1).2 := Inv_train s l1 t1 hInv
    have hP : ∀ c, afind (Train s l1 t1).1.id (Train s l1 t1).2.idToCluster
        = some c → c.Tokens.length = (getContentAsTokens s.config l1).length := by
      intro c hc
      rw [hlook] at hc
      rw [← Option.some.inj hc]
      exact hlen1
    have hstable := ReachFrom_len_stable hreach hInv1 (Train s l1 t1).1.id
      (getContentAsTokens s.config l1).length hidle hP
    have hInv2 : Inv s2 := ReachFrom_Inv hreach hInv1
    rcases hsr2 : treeSearch s2.config s2.idToCluster s2.rootNode
      (getContentAsTokens s2.config l2) s2.config.SimTh false with ⟨o, cache1'⟩
    cases o with
    | some mc =>
      obtain ⟨hres2, fl2, hfl2, hhas2⟩ := treeSearch_some hInv2.key_id hsr2
      have hlen2 : mc.Tokens.length = (getContentAsTokens s2.config l2).length :=
        hInv2.len_inv _ fl2 hfl2 mc.id hhas2 mc hres2
      have hid2 : (Train s2 l2 t2).1.id = mc.id := by
        rw [Train_matches s2 l2 t2 mc cache1' hsr2]
        rfl
      rw [hid2] at hid
      rw [← hlen2]
      exact (hstable mc (hid ▸ hres2)).symm
    | none =>
      have hid2 : (Train s2 l2 t2).1.id = s2.clustersCounter + 1 := by
        rw [Train_creates s2 l2 t2 cache1' hsr2]
        rfl
      rw [hid2] at hid
      have hcle : (Train s l1 t1).2.clustersCounter ≤ s2.clustersCounter :=
        ReachFrom_counter_le hreach
      omega

/-- C5 witness: after training the line `"a"` on the default
configuration, the single cluster resolvable at the leaf reached for the
one-token query has a one-token template. -/
theorem claim_C5_witness :
    (⟨1, 1, [['a']], [['a']], ⟨[(0, 1)]⟩⟩ : LogCluster).Tokens.length
      = ([['a']] : List Str).length :=
  (claim_C5 DefaultConfig (Train (newDrain DefaultConfig) ['a'] 0).2
      (Reachable.train ['a'] 0 (Reachable.init (by decide)))).1
    [['a']] (Node.mk [] [1]) (Node.mk [] [1]) (by rfl) (by rfl) 1 (by decide)
    ⟨1, 1, [['a']], [['a']], ⟨[(0, 1)]⟩⟩ (by decide)

/-- C8: in every reachable state of an engine with `max_children = N ≥ 1`,
every tree node below the root has at most `N` children (first conjunct).
Second and third conjuncts: the insertion step at a node already at
capacity with a previously-unseen digit-free literal routes through the
existing wildcard child without adding any child; and when one slot below
capacity with no wildcard child, it creates the wildcard child (not an
exact child) and descends into it. -/
theorem claim_C8 (cfg : Config) (s : DrainState) (hMax : 1 ≤ cfg.MaxChildren)
    (h : Reachable cfg s) :
    (∀ n fl, afind n s.rootNode = some fl → ∀ sub, SubNode sub fl →
      sub.children.length ≤ cfg.MaxChildren) ∧
    (∀ (cfg0 : Config) (cid n d : Nat) (tok : Str) (rest : List Str)
        (cur : Node) (cache : Cache) (w : Node),
        ¬ cfg0.maxNodeDepth ≤ d → ¬ n ≤ d →
        afind tok cur.children = none → hasNumbers tok = false →
        afind cfg0.ParamString cur.children = some w →
        ¬ cur.children.length < cfg0.MaxChildren →
        insertWalk cfg0 cid n (tok :: rest) d cur cache
            = (Node.mk (aset cfg0.ParamString
                (insertWalk cfg0 cid n rest (d + 1) w cache).1 cur.children)
                cur.clusterIDs,
              (insertWalk cfg0 cid n rest (d + 1) w cache).2) ∧
          (insertWalk cfg0 cid n (tok :: rest) d cur cache).1.children.length
            = cur.children.length) ∧
    (∀ (cfg0 : Config) (cid n d : Nat) (tok : Str) (rest : List Str)
        (cur : Node) (cache : Cache),
        ¬ cfg0.maxNodeDepth ≤ d → ¬ n ≤ d →
        afind tok cur.children = none → hasNumbers tok = false →
        afind cfg0.ParamString cur.children = none →
        cur.children.length + 1 = cfg0.MaxChildren →
        insertWalk cfg0 cid n (tok :: rest) d cur cache
          = (Node.mk (aset cfg0.ParamString
              (insertWalk cfg0 cid n rest (d + 1) createNode cache).1 cur.children)
              cur.clusterIDs,
            (insertWalk cfg0 cid n rest (d + 1) createNode cache).2)) := by
  have hInv : Inv s := Reachable_Inv h
  have hcfg := Reachable_config h
  have hMax' : 1 ≤ s.config.MaxChildren := by rw [hcfg]; exact hMax
  refine ⟨?_, ?_, ?_⟩
  · intro n fl hfl sub hsub
    have := (hInv.bound hMax' n fl hfl sub hsub).1
    rw [hcfg] at this
    exact this
  · intro cfg0 cid n d tok rest cur cache w hd hn hf hnum hp hcap
    have hstep : insertWalk cfg0 cid n (tok :: rest) d cur cache
        = (Node.mk (aset cfg0.ParamString
            (insertWalk cfg0 cid n rest (d + 1) w cache).1 cur.children)
            cur.clusterIDs,
          (insertWalk cfg0 cid n rest (d + 1) w cache).2) := by
      rw [insertWalk, if_neg (by rw [not_or]; exact ⟨hd, hn⟩), hf]
      dsimp only
      rw [if_neg (by rw [hnum]; exact Bool.false_ne_true), hp]
      dsimp only
      rw [if_neg hcap]
    refine ⟨hstep, ?_⟩
    rw [hstep]
    exact aset_length_of_found _ hp
  · intro cfg0 cid n d tok rest cur cache hd hn hf hnum hp hone
    rw [insertWalk, if_neg (by rw [not_or]; exact ⟨hd, hn⟩), hf]
    dsimp only
    rw [if_neg (by rw [hnum]; exact Bool.false_ne_true), hp]
    dsimp only
    rw [if_neg (by omega), if_pos hone]

/-- C8 witness: the branching bound instantiated at the leaf node created
by training one line on the default configuration (`MaxChildren = 100`). -/
theorem claim_C8_witness :
    (Node.mk [] [1]).children.length ≤ DefaultConfig.MaxChildren :=
  (claim_C8 DefaultConfig (Train (newDrain DefaultConfig) ['a'] 0).2 (by decide)
      (Reachable.train ['a'] 0 (Reachable.init (by decide)))).1
    1 (Node.mk [] [1]) (by rfl) (Node.mk [] [1]) (SubNode.refl _)

/-- C3 amended, witness: the default configuration and the line `"a"`. -/
theorem claim_C3_amended_witness :
    (Train (Train (newDrain DefaultConfig) ['a'] 0).2 ['a'] 5).1.id
        = (Train (newDrain DefaultConfig) ['a'] 0).1.id ∧
      (Train (newDrain DefaultConfig) ['a'] 0).1.Size = 1 ∧
      (Train (Train (newDrain DefaultConfig) ['a'] 0).2 ['a'] 5).1.Size = 2 :=
  claim_C3_amended DefaultConfig ['a'] 0 5 (by decide) (by decide) (by decide)
    (by decide)
